import Mathlib

/-!
Verification of the single-symbol limit order book matching engine.

The C++ core (include/order.h, include/price_level.h, include/order_book.h,
src/order_book.cpp, src/matching_engine.cpp) is embedded shallowly:

* `Order` mirrors the 64-byte order record; `Quantity` is modelled as `Nat`
  (the engine caps every fill at `min` of the two remaining quantities, so the
  `uint32` fields never overflow on the paths under study) and `Price` as `Int`
  (`int64_t` ticks; only comparisons are performed on prices).
* A `PriceLevel` holds the FIFO deque of resting orders together with the
  cached `total_qty`, exactly as in price_level.h.  In C++ the deque holds
  `Order*` pointers into the pool and the matching engine mutates the pointed-to
  order before deciding whether to pop it; here the level stores the order
  records themselves and the engine writes the updated front record back into
  the level before popping, which is observationally the same: during matching
  the only mutated resting order is the one at the front of the level, and the
  id→order lookup reads only the immutable fields (id, side, price) of its
  entries.
* The two `std::map` sides are embedded as price-sorted association lists
  (bids descending, asks ascending); `std::unordered_map` `order_lookup_` as an
  association list of `(id, side, price)` triples, i.e. the id keys together
  with the fields the engine ever reads through the stored pointer.
* The `while` loops of `MatchingEngine::match_buy` / `match_sell` become
  structural recursion: the inner loop recurses over the level's queue, the
  outer loop over the list of levels.  In the branch where the resting order is
  only partially filled the loop condition `!incoming->is_filled()` is
  necessarily false on re-entry (the fill was `min` of the two remaining
  quantities), so the embedding returns there; likewise the outer loop can only
  re-enter after a level survives matching if the incoming order is filled.
-/

set_option maxHeartbeats 1000000

namespace OB

/-- types.h: `enum class Side : uint8_t`. -/
inductive Side where
  | BUY
  | SELL
deriving DecidableEq, Repr

/-- types.h: `enum class OrderType : uint8_t`. -/
inductive OrderType where
  | LIMIT
  | MARKET
deriving DecidableEq, Repr

/-- order.h: the compact order record. -/
structure Order where
  id : Nat
  timestamp : Nat
  price : Int
  quantity : Nat
  filled_qty : Nat
  side : Side
  type : OrderType
deriving DecidableEq, Repr

/-- order.h: `remaining() const { return quantity - filled_qty; }`. -/
def Order.remaining (o : Order) : Nat := o.quantity - o.filled_qty

/-- order.h: `is_filled() const { return filled_qty >= quantity; }`. -/
def Order.is_filled (o : Order) : Bool := decide (o.quantity ≤ o.filled_qty)

/-- price_level.h: FIFO queue of resting orders at one price plus the cached
aggregate quantity `total_qty_`. -/
structure PriceLevel where
  orders : List Order
  total_qty : Nat
deriving DecidableEq, Repr

/-- A default-constructed `PriceLevel` (what `std::map::operator[]` creates). -/
def PriceLevel.mk0 : PriceLevel := ⟨[], 0⟩

/-- price_level.h: `add` — append to the tail, bump the cached total. -/
def PriceLevel.add (l : PriceLevel) (o : Order) : PriceLevel :=
  { orders := l.orders ++ [o], total_qty := l.total_qty + o.remaining }

/-- price_level.h: `pop_front` — subtract the head's *current* remaining, then
drop the head.  (The engine calls this after the head has been mutated.) -/
def PriceLevel.pop_front (l : PriceLevel) : PriceLevel :=
  match l.orders with
  | [] => l
  | o :: rest => { orders := rest, total_qty := l.total_qty - o.remaining }

/-- price_level.h: `remove` — erase the first queue entry that is the given
order (pointer identity in C++; ids are unique, so identity is the id). -/
def PriceLevel.remove (l : PriceLevel) (id : Nat) : PriceLevel :=
  match l.orders.find? (fun o => decide (o.id = id)) with
  | none => l
  | some o => { orders := l.orders.eraseP (fun o => decide (o.id = id)),
                total_qty := l.total_qty - o.remaining }

/-- price_level.h: `is_empty`. -/
def PriceLevel.is_empty (l : PriceLevel) : Bool := l.orders.isEmpty

/-- price_level.h: `order_count`. -/
def PriceLevel.order_count (l : PriceLevel) : Nat := l.orders.length

/-- price_level.h: `reduce_quantity` — decrement the cached total after a
partial fill of the head order. -/
def PriceLevel.reduce_quantity (l : PriceLevel) (qty : Nat) : PriceLevel :=
  { l with total_qty := l.total_qty - qty }

/-- One side of the book: `std::map<Price, PriceLevel, Cmp>` embedded as a
price-sorted association list (iteration order = key order under `Cmp`). -/
abbrev BookSide := List (Int × PriceLevel)

/-- `bids_[p]` / `asks_[p]` followed by `PriceLevel::add`: find the level with
this key, or create it at its sorted position, then append the order.
`cmp a b = true` means key `a` is ordered strictly before key `b`. -/
def add_to_side (cmp : Int → Int → Bool) (o : Order) : BookSide → BookSide
  | [] => [(o.price, PriceLevel.mk0.add o)]
  | (p, l) :: rest =>
    if o.price = p then (p, l.add o) :: rest
    else if cmp o.price p then (o.price, PriceLevel.mk0.add o) :: (p, l) :: rest
    else (p, l) :: add_to_side cmp o rest

/-- `std::greater<>` on bid keys: highest price first. -/
def bidCmp (a b : Int) : Bool := decide (b < a)

/-- `std::less<>` on ask keys: lowest price first. -/
def askCmp (a b : Int) : Bool := decide (a < b)

/-- order_book.h: the two sides plus the id lookup.  A lookup entry carries
`(id, side, price)` — the key and the immutable order fields the book code
reads through the stored `Order*`. -/
structure OrderBook where
  bids : BookSide
  asks : BookSide
  order_lookup : List (Nat × Side × Int)
deriving DecidableEq, Repr

def OrderBook.mk0 : OrderBook := ⟨[], [], []⟩

/-- order_book.cpp: `add_order` — register in the lookup
(`order_lookup_[order->id] = order`, i.e. overwrite any stale entry with that
id) and insert into the side keyed by the order's price. -/
def OrderBook.add_order (b : OrderBook) (o : Order) : OrderBook :=
  let lk := (o.id, o.side, o.price) ::
    b.order_lookup.eraseP (fun e => decide (e.1 = o.id))
  match o.side with
  | Side.BUY => { b with bids := add_to_side bidCmp o b.bids, order_lookup := lk }
  | Side.SELL => { b with asks := add_to_side askCmp o b.asks, order_lookup := lk }

/-- order_book.cpp: the level-surgery part of `cancel_order` — find the level
keyed `p`, remove the order from it, and erase the level if it became empty. -/
def cancel_in_side (id : Nat) (p : Int) : BookSide → BookSide
  | [] => []
  | (q, l) :: rest =>
    if q = p then
      let l2 := l.remove id
      if l2.is_empty then rest else (q, l2) :: rest
    else (q, l) :: cancel_in_side id p rest

/-- order_book.cpp: `cancel_order` — locate via the lookup (returning `none` if
the id is unknown), erase the lookup entry, remove the order from its level and
drop the level if emptied, and hand the order back to the caller. -/
def OrderBook.cancel_order (b : OrderBook) (id : Nat) :
    OrderBook × Option (Side × Int) :=
  match b.order_lookup.find? (fun e => decide (e.1 = id)) with
  | none => (b, none)
  | some e =>
    let lk := b.order_lookup.eraseP (fun x => decide (x.1 = id))
    match e.2.1 with
    | Side.BUY =>
      ({ b with bids := cancel_in_side id e.2.2 b.bids, order_lookup := lk },
       some e.2)
    | Side.SELL =>
      ({ b with asks := cancel_in_side id e.2.2 b.asks, order_lookup := lk },
       some e.2)

/-- order_book.cpp: `best_bid` — front key of the bid map. -/
def OrderBook.best_bid (b : OrderBook) : Option Int := b.bids.head?.map Prod.fst

/-- order_book.cpp: `best_ask` — front key of the ask map. -/
def OrderBook.best_ask (b : OrderBook) : Option Int := b.asks.head?.map Prod.fst

/-- order_book.cpp: `get_volume_at_price` — the level's cached total, or 0. -/
def OrderBook.get_volume_at_price (b : OrderBook) (s : Side) (p : Int) : Nat :=
  let side := match s with | Side.BUY => b.bids | Side.SELL => b.asks
  match side.find? (fun e => decide (e.1 = p)) with
  | none => 0
  | some e => e.2.total_qty

/-- order_book.cpp: `has_order` — lookup membership. -/
def OrderBook.has_order (b : OrderBook) (id : Nat) : Bool :=
  b.order_lookup.any (fun e => decide (e.1 = id))

/-- order_book.cpp: `remove_from_lookup` — erase from the lookup only. -/
def OrderBook.remove_from_lookup (b : OrderBook) (id : Nat) : OrderBook :=
  { b with order_lookup := b.order_lookup.eraseP (fun e => decide (e.1 = id)) }

/-- order_book.h: `total_order_count` — size of the lookup. -/
def OrderBook.total_order_count (b : OrderBook) : Nat := b.order_lookup.length

/-- order_book.h: `bid_level_count`. -/
def OrderBook.bid_level_count (b : OrderBook) : Nat := b.bids.length

/-- order_book.h: `ask_level_count`. -/
def OrderBook.ask_level_count (b : OrderBook) : Nat := b.asks.length

/-- trade.h: the trade record. -/
structure Trade where
  buyer_order_id : Nat
  seller_order_id : Nat
  price : Int
  quantity : Nat
  timestamp : Nat
deriving DecidableEq, Repr

/-- Result of `MatchingEngine::execute_trade`: the two updated orders, the
trade record, and the advanced `next_timestamp_` / `trade_count_`. -/
structure TradeResult where
  buyer : Order
  seller : Order
  trade : Trade
  ts : Nat
  tc : Nat
deriving Repr

/-- matching_engine.cpp: `execute_trade` — credit `qty` to both orders'
`filled_qty`, record the trade at the given price with a fresh timestamp. -/
def execute_trade (buyer seller : Order) (qty : Nat) (price : Int)
    (ts tc : Nat) : TradeResult :=
  { buyer := { buyer with filled_qty := buyer.filled_qty + qty },
    seller := { seller with filled_qty := seller.filled_qty + qty },
    trade := { buyer_order_id := buyer.id, seller_order_id := seller.id,
               price := price, quantity := qty, timestamp := ts },
    ts := ts + 1, tc := tc + 1 }

/-- Result of the inner matching loop over one price level. -/
structure LevelMatchResult where
  incoming : Order
  orders : List Order
  total_qty : Nat
  trades : List Trade
  ts : Nat
  tc : Nat
  removed : List Nat
deriving Repr

/-- matching_engine.cpp: the inner `while (!incoming->is_filled() &&
!level.is_empty())` loop of `match_buy` (`isBuy = true`) / `match_sell`
(`isBuy = false`), recursing over the level's FIFO queue.  `isBuy` picks which
argument of `execute_trade` is the incoming order.  When the resting order is
filled, the engine pops it — `PriceLevel::pop_front` subtracts the *mutated*
front order's remaining — removes its id from the lookup (collected in
`removed`) and frees it; otherwise it calls `reduce_quantity fill`, after which
the incoming order is filled (the fill was the `min` of the two remaining
quantities), so the loop exits and the embedding returns. -/
def match_level (isBuy : Bool) (incoming : Order) (orders : List Order)
    (total_qty : Nat) (price : Int) (ts tc : Nat) : LevelMatchResult :=
  match orders with
  | [] => ⟨incoming, [], total_qty, [], ts, tc, []⟩
  | resting :: rest =>
    if incoming.is_filled then ⟨incoming, resting :: rest, total_qty, [], ts, tc, []⟩
    else
      let fill := min incoming.remaining resting.remaining
      let tr := if isBuy then execute_trade incoming resting fill price ts tc
                else execute_trade resting incoming fill price ts tc
      let incoming2 := if isBuy then tr.buyer else tr.seller
      let resting2 := if isBuy then tr.seller else tr.buyer
      if resting2.is_filled then
        -- pop_front on the level whose front is the mutated `resting2`
        let r := match_level isBuy incoming2 rest (total_qty - resting2.remaining)
                   price tr.ts tr.tc
        ⟨r.incoming, r.orders, r.total_qty, tr.trade :: r.trades, r.ts, r.tc,
         resting.id :: r.removed⟩
      else
        -- reduce_quantity fill; the incoming order is filled, the loop exits
        ⟨incoming2, resting2 :: rest, total_qty - fill, [tr.trade], tr.ts, tr.tc, []⟩

/-- The `break` condition of the outer matching loop: a LIMIT order stops when
the best opposite price is beyond its own limit (`ask_price > incoming->price`
when buying, `bid_price < incoming->price` when selling). -/
def gateStop (isBuy : Bool) (incoming : Order) (price : Int) : Bool :=
  decide (incoming.type = OrderType.LIMIT) &&
    (if isBuy then decide (incoming.price < price)
     else decide (price < incoming.price))

/-- Result of walking one whole side of the book. -/
structure SideMatchResult where
  incoming : Order
  levels : BookSide
  trades : List Trade
  ts : Nat
  tc : Nat
  removed : List Nat
deriving Repr

/-- matching_engine.cpp: the outer `while (!incoming->is_filled() &&
!asks.empty())` loop of `match_buy` / `match_sell`, walking the opposite side
best-price first.  A LIMIT order stops at the price gate (`ask_price >
incoming->price` for a buy, `bid_price < incoming->price` for a sell); a level
drained by the inner loop is erased from the map and the walk continues.  If
the level survives the inner loop it keeps the mutated front order; the
incoming order is then filled and the loop exits. -/
def match_side (isBuy : Bool) (incoming : Order) (levels : BookSide)
    (ts tc : Nat) : SideMatchResult :=
  match levels with
  | [] => ⟨incoming, [], [], ts, tc, []⟩
  | (price, level) :: rest =>
    if incoming.is_filled then ⟨incoming, (price, level) :: rest, [], ts, tc, []⟩
    else if gateStop isBuy incoming price then
      ⟨incoming, (price, level) :: rest, [], ts, tc, []⟩
    else
      let r := match_level isBuy incoming level.orders level.total_qty price ts tc
      match r.orders with
      | [] =>
        let r2 := match_side isBuy r.incoming rest r.ts r.tc
        ⟨r2.incoming, r2.levels, r.trades ++ r2.trades, r2.ts, r2.tc,
         r.removed ++ r2.removed⟩
      | o :: os => ⟨r.incoming, (price, ⟨o :: os, r.total_qty⟩) :: rest,
                    r.trades, r.ts, r.tc, r.removed⟩

/-- matching_engine.h: the engine state — the book plus the id / timestamp /
statistics counters (`next_order_id_ = 1`, `next_timestamp_ = 1`). -/
structure MatchingEngine where
  book : OrderBook
  next_order_id : Nat
  next_timestamp : Nat
  trade_count : Nat
  orders_processed : Nat
deriving Repr

/-- A freshly constructed engine. -/
def MatchingEngine.mk0 : MatchingEngine := ⟨OrderBook.mk0, 1, 1, 0, 0⟩

/-- matching_engine.cpp: `process_order` — allocate and populate the order,
match it against the opposite side, then rest the remainder (LIMIT) or discard
it (MARKET); a fully filled order is freed.  The lookup removals the matching
loop performs are collected by `match_side` and applied to the book here;
matching never reads the lookup, so the result is the same. -/
def MatchingEngine.process_order (e : MatchingEngine) (side : Side)
    (type : OrderType) (price : Int) (quantity : Nat) :
    MatchingEngine × List Trade :=
  let order : Order :=
    { id := e.next_order_id, timestamp := e.next_timestamp,
      price := price, quantity := quantity, filled_qty := 0,
      side := side, type := type }
  let r := match side with
    | Side.BUY => match_side true order e.book.asks (e.next_timestamp + 1) e.trade_count
    | Side.SELL => match_side false order e.book.bids (e.next_timestamp + 1) e.trade_count
  let book1 := match side with
    | Side.BUY => { e.book with asks := r.levels }
    | Side.SELL => { e.book with bids := r.levels }
  let book2 := r.removed.foldl OrderBook.remove_from_lookup book1
  let book3 :=
    if r.incoming.is_filled then book2
    else match type with
      | OrderType.LIMIT => book2.add_order r.incoming
      | OrderType.MARKET => book2
  ({ book := book3, next_order_id := e.next_order_id + 1, next_timestamp := r.ts,
     trade_count := r.tc, orders_processed := e.orders_processed + 1 }, r.trades)

/-- matching_engine.cpp: `cancel_order` — delegate to the book; report whether
an order was removed (and freed). -/
def MatchingEngine.cancel_order (e : MatchingEngine) (id : Nat) :
    MatchingEngine × Bool :=
  let r := e.book.cancel_order id
  match r.2 with
  | some _ => ({ e with book := r.1 }, true)
  | none => ({ e with book := r.1 }, false)

/-- A public engine operation. -/
inductive Op where
  | process (side : Side) (type : OrderType) (price : Int) (quantity : Nat)
  | cancel (id : Nat)

/-- Apply one public operation (discarding the returned trades / flag). -/
def applyOp (e : MatchingEngine) : Op → MatchingEngine
  | Op.process s t p q => (e.process_order s t p q).1
  | Op.cancel id => (e.cancel_order id).1

/-- Run a sequence of operations from a given engine state. -/
def runFrom (e : MatchingEngine) : List Op → MatchingEngine
  | [] => e
  | op :: ops => runFrom (applyOp e op) ops

/-- Run a sequence of operations from a fresh engine. -/
def runOps (ops : List Op) : MatchingEngine := runFrom MatchingEngine.mk0 ops

/-- Engine states reachable from a fresh engine by public operations. -/
inductive Reachable : MatchingEngine → Prop where
  | mk0 : Reachable MatchingEngine.mk0
  | process (s t p q) {e} : Reachable e → Reachable (e.process_order s t p q).1
  | cancel (id) {e} : Reachable e → Reachable (e.cancel_order id).1

/-! ### Basic observations about orders and levels -/

theorem Order.is_filled_iff {o : Order} :
    o.is_filled = true ↔ o.quantity ≤ o.filled_qty := by
  simp [Order.is_filled]

theorem Order.is_filled_false_iff {o : Order} :
    o.is_filled = false ↔ o.filled_qty < o.quantity := by
  simp [Order.is_filled]

theorem Order.remaining_of_filled {o : Order} (h : o.is_filled = true) :
    o.remaining = 0 := by
  have := Order.is_filled_iff.mp h
  simp [Order.remaining]
  omega

/-- The identifying triple stored for an order in the id lookup. -/
def trip (o : Order) : Nat × Side × Int := (o.id, o.side, o.price)

@[simp] theorem trip_fst (o : Order) : (trip o).1 = o.id := rfl

/-- All orders resting on one side, in price-then-FIFO iteration order. -/
def sideOrders : BookSide → List Order
  | [] => []
  | e :: rest => e.2.orders ++ sideOrders rest

@[simp] theorem sideOrders_nil : sideOrders [] = [] := rfl

@[simp] theorem sideOrders_cons (e : Int × PriceLevel) (rest : BookSide) :
    sideOrders (e :: rest) = e.2.orders ++ sideOrders rest := rfl

theorem sideOrders_append (s1 s2 : BookSide) :
    sideOrders (s1 ++ s2) = sideOrders s1 ++ sideOrders s2 := by
  induction s1 with
  | nil => simp
  | cons e rest ih => simp [ih]

/-- All orders resting anywhere in the book. -/
def allOrders (b : OrderBook) : List Order := sideOrders b.bids ++ sideOrders b.asks

/-- The maker (resting) side id of a trade produced while matching an
incoming buy (`isBuy = true`) or sell (`isBuy = false`). -/
def makerId (isBuy : Bool) (t : Trade) : Nat :=
  if isBuy then t.seller_order_id else t.buyer_order_id

/-- The taker (incoming) side id of a trade. -/
def takerId (isBuy : Bool) (t : Trade) : Nat :=
  if isBuy then t.buyer_order_id else t.seller_order_id

/-- The effect of `execute_trade` on one of its two orders: credit `q` to
`filled_qty`. -/
def bump (o : Order) (q : Nat) : Order := { o with filled_qty := o.filled_qty + q }

@[simp] theorem bump_id (o : Order) (q : Nat) : (bump o q).id = o.id := rfl
@[simp] theorem bump_price (o : Order) (q : Nat) : (bump o q).price = o.price := rfl
@[simp] theorem bump_side (o : Order) (q : Nat) : (bump o q).side = o.side := rfl
@[simp] theorem bump_type (o : Order) (q : Nat) : (bump o q).type = o.type := rfl
@[simp] theorem bump_quantity (o : Order) (q : Nat) : (bump o q).quantity = o.quantity := rfl
@[simp] theorem bump_filled (o : Order) (q : Nat) :
  (bump o q).filled_qty = o.filled_qty + q := rfl
@[simp] theorem trip_bump (o : Order) (q : Nat) : trip (bump o q) = trip o := rfl

/-! ### Unfolding lemmas for the inner matching loop -/

@[simp] theorem match_level_nil (isBuy : Bool) (inc : Order) (total : Nat)
    (p : Int) (ts tc : Nat) :
    match_level isBuy inc [] total p ts tc = ⟨inc, [], total, [], ts, tc, []⟩ := by
  simp [match_level]

theorem match_level_cons_filled {inc : Order} (isBuy : Bool)
    (resting : Order) (rest : List Order) (total : Nat) (p : Int) (ts tc : Nat)
    (h : inc.is_filled = true) :
    match_level isBuy inc (resting :: rest) total p ts tc =
      ⟨inc, resting :: rest, total, [], ts, tc, []⟩ := by
  simp [match_level, h]

theorem match_level_cons_pop {inc resting : Order} {rest : List Order}
    {total : Nat} {p : Int} {ts tc : Nat} (isBuy : Bool)
    (h1 : inc.is_filled = false)
    (h2 : (bump resting (min inc.remaining resting.remaining)).is_filled = true) :
    match_level isBuy inc (resting :: rest) total p ts tc =
      (let fill := min inc.remaining resting.remaining
       let r := match_level isBuy (bump inc fill) rest total p (ts + 1) (tc + 1)
       ⟨r.incoming, r.orders, r.total_qty,
        { buyer_order_id := if isBuy then inc.id else resting.id,
          seller_order_id := if isBuy then resting.id else inc.id,
          price := p, quantity := fill, timestamp := ts } :: r.trades,
        r.ts, r.tc, resting.id :: r.removed⟩) := by
  have hz : Order.remaining (bump resting (min inc.remaining resting.remaining)) = 0 :=
    Order.remaining_of_filled h2
  cases isBuy <;>
    simp only [bump, match_level, h1, h2, execute_trade, hz, Bool.false_eq_true,
      if_false, if_true, Nat.sub_zero, cond_false, cond_true] at h2 hz ⊢

theorem match_level_cons_mid {inc resting : Order} {rest : List Order}
    {total : Nat} {p : Int} {ts tc : Nat} (isBuy : Bool)
    (h1 : inc.is_filled = false)
    (h2 : (bump resting (min inc.remaining resting.remaining)).is_filled = false) :
    match_level isBuy inc (resting :: rest) total p ts tc =
      (let fill := min inc.remaining resting.remaining
       ⟨bump inc fill, bump resting fill :: rest, total - fill,
        [{ buyer_order_id := if isBuy then inc.id else resting.id,
           seller_order_id := if isBuy then resting.id else inc.id,
           price := p, quantity := fill, timestamp := ts }],
        ts + 1, tc + 1, []⟩) := by
  cases isBuy <;>
    simp only [bump, match_level, h1, h2, execute_trade, Bool.false_eq_true,
      if_false, if_true, cond_false, cond_true] at h2 ⊢

/-! ### Properties of the inner matching loop -/

/-- The level's queue loses a front segment of orders (those fully filled and
popped), whose ids are exactly the collected lookup removals; the survivors
keep their identifying triple (only `filled_qty` may have changed). -/
theorem match_level_trips (isBuy : Bool) (inc : Order) (orders : List Order)
    (total : Nat) (p : Int) (ts tc : Nat) :
    ∃ gone : List Order,
      orders.map trip = gone.map trip ++
        (match_level isBuy inc orders total p ts tc).orders.map trip ∧
      (match_level isBuy inc orders total p ts tc).removed = gone.map Order.id := by
  induction orders generalizing inc total ts tc with
  | nil => exact ⟨[], by simp⟩
  | cons resting rest ih =>
    by_cases hf : inc.is_filled = true
    · exact ⟨[], by simp [match_level_cons_filled isBuy resting rest total p ts tc hf]⟩
    · rw [Bool.not_eq_true] at hf
      by_cases hr : (bump resting (min inc.remaining resting.remaining)).is_filled = true
      · rw [match_level_cons_pop isBuy hf hr]
        obtain ⟨gone, h1, h2⟩ := ih (bump inc (min inc.remaining resting.remaining)) total (ts + 1) (tc + 1)
        exact ⟨resting :: gone, by simp [h1, h2]⟩
      · rw [Bool.not_eq_true] at hr
        rw [match_level_cons_mid isBuy hf hr]
        exact ⟨[], by simp⟩

/-- Field preservation for surviving resting orders: price/side/type carry
over, and every survivor still has `filled_qty < quantity`. -/
theorem match_level_orders_wf (isBuy : Bool) (inc : Order) (orders : List Order)
    (total : Nat) (p0 : Int) (ts tc : Nat) (s : Side) (pr : Int)
    (H : ∀ o ∈ orders, o.price = pr ∧ o.side = s ∧ o.type = OrderType.LIMIT ∧
      o.filled_qty < o.quantity) :
    ∀ o ∈ (match_level isBuy inc orders total p0 ts tc).orders,
      o.price = pr ∧ o.side = s ∧ o.type = OrderType.LIMIT ∧
      o.filled_qty < o.quantity := by
  induction orders generalizing inc total ts tc with
  | nil => simp
  | cons resting rest ih =>
    by_cases hf : inc.is_filled = true
    · rw [match_level_cons_filled isBuy resting rest total p0 ts tc hf]
      exact H
    · rw [Bool.not_eq_true] at hf
      by_cases hr : (bump resting (min inc.remaining resting.remaining)).is_filled = true
      · rw [match_level_cons_pop isBuy hf hr]
        exact ih _ _ _ _ fun o ho => H o (List.mem_cons_of_mem _ ho)
      · rw [Bool.not_eq_true] at hr
        rw [match_level_cons_mid isBuy hf hr]
        intro o ho
        simp only [List.mem_cons] at ho
        rcases ho with rfl | ho
        · obtain ⟨h1, h2, h3, _⟩ := H resting (List.mem_cons_self _ _)
          refine ⟨h1, h2, h3, ?_⟩
          have := Order.is_filled_false_iff.mp hr
          simpa [bump] using this
        · exact H o (List.mem_cons_of_mem _ ho)

/-- Every trade of the inner loop is priced at the level's key, its maker is
one of the level's resting orders, and its taker is the incoming order. -/
theorem match_level_trades (isBuy : Bool) (inc : Order) (orders : List Order)
    (total : Nat) (p : Int) (ts tc : Nat) :
    ∀ t ∈ (match_level isBuy inc orders total p ts tc).trades,
      t.price = p ∧ makerId isBuy t ∈ orders.map Order.id ∧
      takerId isBuy t = inc.id := by
  induction orders generalizing inc total ts tc with
  | nil => simp
  | cons resting rest ih =>
    by_cases hf : inc.is_filled = true
    · rw [match_level_cons_filled isBuy resting rest total p ts tc hf]; simp
    · rw [Bool.not_eq_true] at hf
      by_cases hr : (bump resting (min inc.remaining resting.remaining)).is_filled = true
      · rw [match_level_cons_pop isBuy hf hr]
        intro t ht
        simp only [List.mem_cons] at ht
        rcases ht with rfl | ht
        · cases isBuy <;> simp [makerId, takerId]
        · obtain ⟨h1, h2, h3⟩ := ih (bump inc (min inc.remaining resting.remaining)) total (ts + 1) (tc + 1) t ht
          exact ⟨h1, by simpa using Or.inr (by simpa using h2), by simpa using h3⟩
      · rw [Bool.not_eq_true] at hr
        rw [match_level_cons_mid isBuy hf hr]
        intro t ht
        simp only [List.mem_cons, List.not_mem_nil, or_false] at ht
        subst ht
        cases isBuy <;> simp [makerId, takerId]

/-- The incoming order keeps its identity fields; its `filled_qty` only grows,
never beyond `quantity` (when it started within bounds), and the trades' total
quantity is exactly the growth. -/
theorem match_level_incoming (isBuy : Bool) (inc : Order) (orders : List Order)
    (total : Nat) (p : Int) (ts tc : Nat) :
    (match_level isBuy inc orders total p ts tc).incoming.id = inc.id ∧
    (match_level isBuy inc orders total p ts tc).incoming.price = inc.price ∧
    (match_level isBuy inc orders total p ts tc).incoming.side = inc.side ∧
    (match_level isBuy inc orders total p ts tc).incoming.type = inc.type ∧
    (match_level isBuy inc orders total p ts tc).incoming.quantity = inc.quantity ∧
    inc.filled_qty ≤ (match_level isBuy inc orders total p ts tc).incoming.filled_qty ∧
    (match_level isBuy inc orders total p ts tc).incoming.filled_qty ≤
      max inc.filled_qty inc.quantity ∧
    ((match_level isBuy inc orders total p ts tc).trades.map Trade.quantity).sum =
      (match_level isBuy inc orders total p ts tc).incoming.filled_qty - inc.filled_qty := by
  induction orders generalizing inc total ts tc with
  | nil => simp
  | cons resting rest ih =>
    by_cases hf : inc.is_filled = true
    · rw [match_level_cons_filled isBuy resting rest total p ts tc hf]
      simp
    · rw [Bool.not_eq_true] at hf
      have hflt : inc.filled_qty < inc.quantity := Order.is_filled_false_iff.mp hf
      by_cases hr : (bump resting (min inc.remaining resting.remaining)).is_filled = true
      · rw [match_level_cons_pop isBuy hf hr]
        obtain ⟨h1, h2, h3, h4, h5, h6, h7, h8⟩ :=
          ih (bump inc (min inc.remaining resting.remaining)) total (ts + 1) (tc + 1)
        simp only [bump_id, bump_price, bump_side, bump_type, bump_quantity,
          bump_filled, Order.remaining] at h1 h2 h3 h4 h5 h6 h7 h8
        simp only [Order.remaining] at *
        simp only [List.map_cons, List.sum_cons, h8]
        exact ⟨h1, h2, h3, h4, h5, by omega, by omega, by omega⟩
      · rw [Bool.not_eq_true] at hr
        rw [match_level_cons_mid isBuy hf hr]
        refine ⟨rfl, rfl, rfl, rfl, rfl, ?_, ?_, ?_⟩ <;>
          simp only [bump_filled, bump_quantity, bump_id, List.map_cons,
            List.map_nil, List.sum_cons, List.sum_nil, Order.remaining] <;>
          omega

/-- The inner loop stops only because the level drained or the incoming order
is filled. -/
theorem match_level_stop (isBuy : Bool) (inc : Order) (orders : List Order)
    (total : Nat) (p : Int) (ts tc : Nat) :
    (match_level isBuy inc orders total p ts tc).orders = [] ∨
    (match_level isBuy inc orders total p ts tc).incoming.is_filled = true := by
  induction orders generalizing inc total ts tc with
  | nil => simp
  | cons resting rest ih =>
    by_cases hf : inc.is_filled = true
    · rw [match_level_cons_filled isBuy resting rest total p ts tc hf]
      exact Or.inr hf
    · rw [Bool.not_eq_true] at hf
      by_cases hr : (bump resting (min inc.remaining resting.remaining)).is_filled = true
      · rw [match_level_cons_pop isBuy hf hr]
        exact ih _ _ _ _
      · rw [Bool.not_eq_true] at hr
        rw [match_level_cons_mid isBuy hf hr]
        refine Or.inr ?_
        have h1 : inc.filled_qty < inc.quantity := Order.is_filled_false_iff.mp hf
        have h2 := Order.is_filled_false_iff.mp hr
        simp only [bump_filled, bump_quantity] at h2
        simp only [bump, Order.is_filled, Order.remaining, decide_eq_true_eq] at h2 ⊢
        omega

/-- Trade timestamps are consecutive from the starting counter, which advances
by one per trade. -/
theorem match_level_ts (isBuy : Bool) (inc : Order) (orders : List Order)
    (total : Nat) (p : Int) (ts tc : Nat) :
    (match_level isBuy inc orders total p ts tc).trades.map Trade.timestamp =
      List.range' ts (match_level isBuy inc orders total p ts tc).trades.length ∧
    (match_level isBuy inc orders total p ts tc).ts =
      ts + (match_level isBuy inc orders total p ts tc).trades.length := by
  induction orders generalizing inc total ts tc with
  | nil => simp
  | cons resting rest ih =>
    by_cases hf : inc.is_filled = true
    · rw [match_level_cons_filled isBuy resting rest total p ts tc hf]; simp
    · rw [Bool.not_eq_true] at hf
      by_cases hr : (bump resting (min inc.remaining resting.remaining)).is_filled = true
      · rw [match_level_cons_pop isBuy hf hr]
        obtain ⟨h1, h2⟩ := ih (bump inc (min inc.remaining resting.remaining)) total (ts + 1) (tc + 1)
        constructor
        · simp only [List.map_cons, List.length_cons, h1, List.range'_succ]
        · simp only [List.length_cons, h2]
          omega
      · rw [Bool.not_eq_true] at hr
        rw [match_level_cons_mid isBuy hf hr]
        simp [List.range'_succ]

/-- FIFO within the level: the makers of the inner loop's trades are an
initial segment of the level's queue, in queue order. -/
theorem match_level_fifo (isBuy : Bool) (inc : Order) (orders : List Order)
    (total : Nat) (p : Int) (ts tc : Nat) :
    ∃ suf, orders.map Order.id =
      (match_level isBuy inc orders total p ts tc).trades.map (makerId isBuy) ++ suf := by
  induction orders generalizing inc total ts tc with
  | nil => exact ⟨[], by simp⟩
  | cons resting rest ih =>
    by_cases hf : inc.is_filled = true
    · exact ⟨resting.id :: rest.map Order.id,
        by simp [match_level_cons_filled isBuy resting rest total p ts tc hf]⟩
    · rw [Bool.not_eq_true] at hf
      by_cases hr : (bump resting (min inc.remaining resting.remaining)).is_filled = true
      · rw [match_level_cons_pop isBuy hf hr]
        obtain ⟨suf, h⟩ := ih (bump inc (min inc.remaining resting.remaining)) total (ts + 1) (tc + 1)
        refine ⟨suf, ?_⟩
        cases isBuy <;> simp [makerId, h]
      · rw [Bool.not_eq_true] at hr
        rw [match_level_cons_mid isBuy hf hr]
        refine ⟨rest.map Order.id, ?_⟩
        cases isBuy <;> simp [makerId]

/-! ### Unfolding lemmas for the outer matching loop -/

@[simp] theorem match_side_nil (isBuy : Bool) (inc : Order) (ts tc : Nat) :
    match_side isBuy inc [] ts tc = ⟨inc, [], [], ts, tc, []⟩ := by
  simp [match_side]

theorem match_side_cons_filled {inc : Order} (isBuy : Bool) (price : Int)
    (level : PriceLevel) (rest : BookSide) (ts tc : Nat)
    (h : inc.is_filled = true) :
    match_side isBuy inc ((price, level) :: rest) ts tc =
      ⟨inc, (price, level) :: rest, [], ts, tc, []⟩ := by
  simp [match_side, h]

theorem match_side_cons_gate {inc : Order} (isBuy : Bool) (price : Int)
    (level : PriceLevel) (rest : BookSide) (ts tc : Nat)
    (h1 : inc.is_filled = false) (h2 : gateStop isBuy inc price = true) :
    match_side isBuy inc ((price, level) :: rest) ts tc =
      ⟨inc, (price, level) :: rest, [], ts, tc, []⟩ := by
  simp [match_side, h1, h2]

theorem match_side_cons_erase {inc : Order} {isBuy : Bool} {price : Int}
    {level : PriceLevel} {rest : BookSide} {ts tc : Nat}
    (h1 : inc.is_filled = false) (h2 : gateStop isBuy inc price = false)
    (h3 : (match_level isBuy inc level.orders level.total_qty price ts tc).orders = []) :
    match_side isBuy inc ((price, level) :: rest) ts tc =
      (let r := match_level isBuy inc level.orders level.total_qty price ts tc
       let r2 := match_side isBuy r.incoming rest r.ts r.tc
       ⟨r2.incoming, r2.levels, r.trades ++ r2.trades, r2.ts, r2.tc,
        r.removed ++ r2.removed⟩) := by
  simp only [match_side, h1, h2, Bool.false_eq_true, if_false]
  split
  · rfl
  · simp_all

theorem match_side_cons_keep {inc : Order} {isBuy : Bool} {price : Int}
    {level : PriceLevel} {rest : BookSide} {ts tc : Nat} {o : Order} {os : List Order}
    (h1 : inc.is_filled = false) (h2 : gateStop isBuy inc price = false)
    (h3 : (match_level isBuy inc level.orders level.total_qty price ts tc).orders = o :: os) :
    match_side isBuy inc ((price, level) :: rest) ts tc =
      (let r := match_level isBuy inc level.orders level.total_qty price ts tc
       ⟨r.incoming, (price, ⟨r.orders, r.total_qty⟩) :: rest, r.trades,
        r.ts, r.tc, r.removed⟩) := by
  simp only [match_side, h1, h2, Bool.false_eq_true, if_false]
  split
  · simp_all
  · rename_i o2 os2 heq
    rw [← heq]

/-! ### Properties of the outer matching loop -/

/-- The side loses a front segment of its resting orders; the removed ids are
exactly the collected lookup removals, and survivors keep their triples. -/
theorem match_side_trips (isBuy : Bool) (inc : Order) (levels : BookSide)
    (ts tc : Nat) :
    ∃ gone : List Order,
      (sideOrders levels).map trip = gone.map trip ++
        (sideOrders (match_side isBuy inc levels ts tc).levels).map trip ∧
      (match_side isBuy inc levels ts tc).removed = gone.map Order.id := by
  induction levels generalizing inc ts tc with
  | nil => exact ⟨[], by simp⟩
  | cons e rest ih =>
    obtain ⟨price, level⟩ := e
    by_cases hf : inc.is_filled = true
    · exact ⟨[], by simp [match_side_cons_filled isBuy price level rest ts tc hf]⟩
    · rw [Bool.not_eq_true] at hf
      by_cases hg : gateStop isBuy inc price = true
      · exact ⟨[], by simp [match_side_cons_gate isBuy price level rest ts tc hf hg]⟩
      · rw [Bool.not_eq_true] at hg
        obtain ⟨gone1, he1, he2⟩ :=
          match_level_trips isBuy inc level.orders level.total_qty price ts tc
        match h3 : (match_level isBuy inc level.orders level.total_qty price ts tc).orders with
        | [] =>
          rw [match_side_cons_erase hf hg h3]
          obtain ⟨gone2, hg1, hg2⟩ := ih
            ((match_level isBuy inc level.orders level.total_qty price ts tc).incoming)
            ((match_level isBuy inc level.orders level.total_qty price ts tc).ts)
            ((match_level isBuy inc level.orders level.total_qty price ts tc).tc)
          refine ⟨gone1 ++ gone2, ?_, ?_⟩
          · rw [h3] at he1
            simp only [sideOrders_cons, List.map_append, he1, hg1, List.map_nil,
              List.append_nil, List.append_assoc]
          · simp [he2, hg2]
        | o :: os =>
          rw [match_side_cons_keep hf hg h3]
          refine ⟨gone1, ?_, ?_⟩
          · simp only [sideOrders_cons, List.map_append, he1, List.append_assoc]
          · simpa using he2

/-- The surviving level keys are a tail segment of the original keys. -/
theorem match_side_keys (isBuy : Bool) (inc : Order) (levels : BookSide)
    (ts tc : Nat) :
    ∃ k, (match_side isBuy inc levels ts tc).levels.map Prod.fst =
      (levels.map Prod.fst).drop k := by
  induction levels generalizing inc ts tc with
  | nil => exact ⟨0, by simp⟩
  | cons e rest ih =>
    obtain ⟨price, level⟩ := e
    by_cases hf : inc.is_filled = true
    · exact ⟨0, by simp [match_side_cons_filled isBuy price level rest ts tc hf]⟩
    · rw [Bool.not_eq_true] at hf
      by_cases hg : gateStop isBuy inc price = true
      · exact ⟨0, by simp [match_side_cons_gate isBuy price level rest ts tc hf hg]⟩
      · rw [Bool.not_eq_true] at hg
        match h3 : (match_level isBuy inc level.orders level.total_qty price ts tc).orders with
        | [] =>
          rw [match_side_cons_erase hf hg h3]
          obtain ⟨k, hk⟩ := ih
            ((match_level isBuy inc level.orders level.total_qty price ts tc).incoming)
            ((match_level isBuy inc level.orders level.total_qty price ts tc).ts)
            ((match_level isBuy inc level.orders level.total_qty price ts tc).tc)
          exact ⟨k + 1, by simpa using hk⟩
        | o :: os =>
          rw [match_side_cons_keep hf hg h3]
          exact ⟨0, by simp⟩

/-- Level well-formedness survives matching: every surviving level is
non-empty and its orders are keyed to it with positive remaining. -/
theorem match_side_levels_wf (isBuy : Bool) (inc : Order) (levels : BookSide)
    (ts tc : Nat) (s : Side)
    (H : ∀ e ∈ levels, e.2.orders ≠ [] ∧ ∀ o ∈ e.2.orders,
      o.price = e.1 ∧ o.side = s ∧ o.type = OrderType.LIMIT ∧
      o.filled_qty < o.quantity) :
    ∀ e ∈ (match_side isBuy inc levels ts tc).levels, e.2.orders ≠ [] ∧
      ∀ o ∈ e.2.orders, o.price = e.1 ∧ o.side = s ∧ o.type = OrderType.LIMIT ∧
        o.filled_qty < o.quantity := by
  induction levels generalizing inc ts tc with
  | nil => simp
  | cons e0 rest ih =>
    obtain ⟨price, level⟩ := e0
    by_cases hf : inc.is_filled = true
    · rw [match_side_cons_filled isBuy price level rest ts tc hf]
      exact H
    · rw [Bool.not_eq_true] at hf
      by_cases hg : gateStop isBuy inc price = true
      · rw [match_side_cons_gate isBuy price level rest ts tc hf hg]
        exact H
      · rw [Bool.not_eq_true] at hg
        match h3 : (match_level isBuy inc level.orders level.total_qty price ts tc).orders with
        | [] =>
          rw [match_side_cons_erase hf hg h3]
          exact ih _ _ _ fun e he => H e (List.mem_cons_of_mem _ he)
        | o :: os =>
          rw [match_side_cons_keep hf hg h3]
          intro e he
          simp only [List.mem_cons] at he
          rcases he with rfl | he
          · refine ⟨by simp [h3], ?_⟩
            intro o2 ho2
            exact match_level_orders_wf isBuy inc level.orders level.total_qty
              price ts tc s price
              (fun o3 ho3 => (H (price, level) (List.mem_cons_self _ _)).2 o3 ho3)
              o2 ho2
          · exact H e (List.mem_cons_of_mem _ he)

/-- The incoming order's identity fields survive the whole walk; its fill only
grows, stays within `quantity`, and equals the traded total. -/
theorem match_side_incoming (isBuy : Bool) (inc : Order) (levels : BookSide)
    (ts tc : Nat) :
    (match_side isBuy inc levels ts tc).incoming.id = inc.id ∧
    (match_side isBuy inc levels ts tc).incoming.price = inc.price ∧
    (match_side isBuy inc levels ts tc).incoming.side = inc.side ∧
    (match_side isBuy inc levels ts tc).incoming.type = inc.type ∧
    (match_side isBuy inc levels ts tc).incoming.quantity = inc.quantity ∧
    inc.filled_qty ≤ (match_side isBuy inc levels ts tc).incoming.filled_qty ∧
    (match_side isBuy inc levels ts tc).incoming.filled_qty ≤
      max inc.filled_qty inc.quantity ∧
    ((match_side isBuy inc levels ts tc).trades.map Trade.quantity).sum =
      (match_side isBuy inc levels ts tc).incoming.filled_qty - inc.filled_qty := by
  induction levels generalizing inc ts tc with
  | nil => simp
  | cons e0 rest ih =>
    obtain ⟨price, level⟩ := e0
    by_cases hf : inc.is_filled = true
    · rw [match_side_cons_filled isBuy price level rest ts tc hf]; simp
    · rw [Bool.not_eq_true] at hf
      by_cases hg : gateStop isBuy inc price = true
      · rw [match_side_cons_gate isBuy price level rest ts tc hf hg]; simp
      · rw [Bool.not_eq_true] at hg
        obtain ⟨m1, m2, m3, m4, m5, m6, m7, m8⟩ :=
          match_level_incoming isBuy inc level.orders level.total_qty price ts tc
        match h3 : (match_level isBuy inc level.orders level.total_qty price ts tc).orders with
        | [] =>
          rw [match_side_cons_erase hf hg h3]
          dsimp only
          obtain ⟨k1, k2, k3, k4, k5, k6, k7, k8⟩ := ih
            ((match_level isBuy inc level.orders level.total_qty price ts tc).incoming)
            ((match_level isBuy inc level.orders level.total_qty price ts tc).ts)
            ((match_level isBuy inc level.orders level.total_qty price ts tc).tc)
          simp only [m1, m2, m3, m4, m5] at k1 k2 k3 k4 k5 k6 k7
          refine ⟨k1, k2, k3, k4, k5, by omega, by omega, ?_⟩
          simp only [List.map_append, List.sum_append, m8, k8]
          omega
        | o :: os =>
          rw [match_side_cons_keep hf hg h3]
          exact ⟨m1, m2, m3, m4, m5, m6, m7, m8⟩

/-- The walk stops only because: the incoming order is filled, the side is
exhausted, or a LIMIT price gate blocks the best surviving level. -/
theorem match_side_stop (isBuy : Bool) (inc : Order) (levels : BookSide)
    (ts tc : Nat) :
    (match_side isBuy inc levels ts tc).incoming.is_filled = true ∨
    (match_side isBuy inc levels ts tc).levels = [] ∨
    ∃ p0 l0 rest0, (match_side isBuy inc levels ts tc).levels = (p0, l0) :: rest0 ∧
      gateStop isBuy (match_side isBuy inc levels ts tc).incoming p0 = true := by
  induction levels generalizing inc ts tc with
  | nil => simp
  | cons e0 rest ih =>
    obtain ⟨price, level⟩ := e0
    by_cases hf : inc.is_filled = true
    · rw [match_side_cons_filled isBuy price level rest ts tc hf]
      exact Or.inl hf
    · rw [Bool.not_eq_true] at hf
      by_cases hg : gateStop isBuy inc price = true
      · rw [match_side_cons_gate isBuy price level rest ts tc hf hg]
        exact Or.inr (Or.inr ⟨price, level, rest, rfl, hg⟩)
      · rw [Bool.not_eq_true] at hg
        match h3 : (match_level isBuy inc level.orders level.total_qty price ts tc).orders with
        | [] =>
          rw [match_side_cons_erase hf hg h3]
          exact ih _ _ _
        | o :: os =>
          rw [match_side_cons_keep hf hg h3]
          rcases match_level_stop isBuy inc level.orders level.total_qty price ts tc with h | h
          · rw [h3] at h; simp at h
          · exact Or.inl h

/-- Trade timestamps over a whole walk are consecutive from the starting
counter, which advances by one per trade. -/
theorem match_side_ts (isBuy : Bool) (inc : Order) (levels : BookSide)
    (ts tc : Nat) :
    (match_side isBuy inc levels ts tc).trades.map Trade.timestamp =
      List.range' ts (match_side isBuy inc levels ts tc).trades.length ∧
    (match_side isBuy inc levels ts tc).ts =
      ts + (match_side isBuy inc levels ts tc).trades.length := by
  induction levels generalizing inc ts tc with
  | nil => simp
  | cons e0 rest ih =>
    obtain ⟨price, level⟩ := e0
    by_cases hf : inc.is_filled = true
    · rw [match_side_cons_filled isBuy price level rest ts tc hf]; simp
    · rw [Bool.not_eq_true] at hf
      by_cases hg : gateStop isBuy inc price = true
      · rw [match_side_cons_gate isBuy price level rest ts tc hf hg]; simp
      · rw [Bool.not_eq_true] at hg
        obtain ⟨m1, m2⟩ := match_level_ts isBuy inc level.orders level.total_qty price ts tc
        match h3 : (match_level isBuy inc level.orders level.total_qty price ts tc).orders with
        | [] =>
          rw [match_side_cons_erase hf hg h3]
          dsimp only
          obtain ⟨k1, k2⟩ := ih
            ((match_level isBuy inc level.orders level.total_qty price ts tc).incoming)
            ((match_level isBuy inc level.orders level.total_qty price ts tc).ts)
            ((match_level isBuy inc level.orders level.total_qty price ts tc).tc)
          rw [m2] at k1 k2
          constructor
          · rw [List.map_append, List.length_append, m1, m2, k1, List.range'_append_1]
            congr 1
            omega
          · rw [List.length_append, m2, k2]
            omega
        | o :: os =>
          rw [match_side_cons_keep hf hg h3]
          exact ⟨m1, m2⟩

/-- Every trade of a walk is priced at the key of one of the walked levels,
with its maker resting in that level and its taker the incoming order. -/
theorem match_side_trades (isBuy : Bool) (inc : Order) (levels : BookSide)
    (ts tc : Nat) :
    ∀ t ∈ (match_side isBuy inc levels ts tc).trades,
      ∃ e ∈ levels, t.price = e.1 ∧ makerId isBuy t ∈ e.2.orders.map Order.id ∧
        takerId isBuy t = inc.id := by
  induction levels generalizing inc ts tc with
  | nil => simp
  | cons e0 rest ih =>
    obtain ⟨price, level⟩ := e0
    by_cases hf : inc.is_filled = true
    · rw [match_side_cons_filled isBuy price level rest ts tc hf]; simp
    · rw [Bool.not_eq_true] at hf
      by_cases hg : gateStop isBuy inc price = true
      · rw [match_side_cons_gate isBuy price level rest ts tc hf hg]; simp
      · rw [Bool.not_eq_true] at hg
        match h3 : (match_level isBuy inc level.orders level.total_qty price ts tc).orders with
        | [] =>
          rw [match_side_cons_erase hf hg h3]
          dsimp only
          intro t ht
          rw [List.mem_append] at ht
          rcases ht with ht | ht
          · obtain ⟨p1, p2, p3⟩ :=
              match_level_trades isBuy inc level.orders level.total_qty price ts tc t ht
            exact ⟨(price, level), List.mem_cons_self _ _, p1, p2, p3⟩
          · obtain ⟨e, he, p1, p2, p3⟩ := ih
              ((match_level isBuy inc level.orders level.total_qty price ts tc).incoming)
              ((match_level isBuy inc level.orders level.total_qty price ts tc).ts)
              ((match_level isBuy inc level.orders level.total_qty price ts tc).tc)
              t ht
            refine ⟨e, List.mem_cons_of_mem _ he, p1, p2, ?_⟩
            rw [p3]
            exact (match_level_incoming isBuy inc level.orders level.total_qty price ts tc).1
        | o :: os =>
          rw [match_side_cons_keep hf hg h3]
          intro t ht
          obtain ⟨p1, p2, p3⟩ :=
            match_level_trades isBuy inc level.orders level.total_qty price ts tc t ht
          exact ⟨(price, level), List.mem_cons_self _ _, p1, p2, p3⟩

/-- A list all of whose elements are one value is pairwise reflexive-or-`rel`. -/
theorem pairwise_of_all_eq {α : Type} (rel : α → α → Prop) (c : α) :
    ∀ (l : List α), (∀ x ∈ l, x = c) →
      l.Pairwise (fun a b => a = b ∨ rel a b)
  | [], _ => List.Pairwise.nil
  | x :: xs, H => by
    refine List.Pairwise.cons ?_ (pairwise_of_all_eq rel c xs fun y hy => H y (List.mem_cons_of_mem _ hy))
    intro y hy
    rw [H x (List.mem_cons_self _ _), H y (List.mem_cons_of_mem _ hy)]
    exact Or.inl rfl

/-- Best-price-first: when the walked side's keys are sorted by `rel`, the
trade prices of a single walk are sorted by `rel` up to equality. -/
theorem match_side_prices (isBuy : Bool) (inc : Order) (levels : BookSide)
    (ts tc : Nat) (rel : Int → Int → Prop)
    (Hsort : (levels.map Prod.fst).Pairwise rel) :
    ((match_side isBuy inc levels ts tc).trades.map Trade.price).Pairwise
      (fun a b => a = b ∨ rel a b) := by
  induction levels generalizing inc ts tc with
  | nil => simp
  | cons e0 rest ih =>
    obtain ⟨price, level⟩ := e0
    rw [List.map_cons, List.pairwise_cons] at Hsort
    by_cases hf : inc.is_filled = true
    · rw [match_side_cons_filled isBuy price level rest ts tc hf]; simp
    · rw [Bool.not_eq_true] at hf
      by_cases hg : gateStop isBuy inc price = true
      · rw [match_side_cons_gate isBuy price level rest ts tc hf hg]; simp
      · rw [Bool.not_eq_true] at hg
        have hall : ∀ t ∈ (match_level isBuy inc level.orders level.total_qty price ts tc).trades,
            t.price = price := fun t ht =>
          (match_level_trades isBuy inc level.orders level.total_qty price ts tc t ht).1
        match h3 : (match_level isBuy inc level.orders level.total_qty price ts tc).orders with
        | [] =>
          rw [match_side_cons_erase hf hg h3]
          dsimp only
          rw [List.map_append, List.pairwise_append]
          refine ⟨pairwise_of_all_eq rel price _ ?_, ih _ _ _ Hsort.2, ?_⟩
          · intro x hx
            obtain ⟨t, ht, rfl⟩ := List.mem_map.mp hx
            exact hall t ht
          · intro a ha b hb
            obtain ⟨t, ht, rfl⟩ := List.mem_map.mp ha
            obtain ⟨u, hu, rfl⟩ := List.mem_map.mp hb
            obtain ⟨e, he, q1, _, _⟩ := match_side_trades isBuy
              ((match_level isBuy inc level.orders level.total_qty price ts tc).incoming)
              rest
              ((match_level isBuy inc level.orders level.total_qty price ts tc).ts)
              ((match_level isBuy inc level.orders level.total_qty price ts tc).tc)
              u hu
            rw [hall t ht, q1]
            exact Or.inr (Hsort.1 e.1 (List.mem_map_of_mem Prod.fst he))
        | o :: os =>
          rw [match_side_cons_keep hf hg h3]
          refine pairwise_of_all_eq rel price _ ?_
          intro x hx
          obtain ⟨t, ht, rfl⟩ := List.mem_map.mp hx
          exact hall t ht

/-- FIFO within a level, lifted to the whole walk: for each walked level, the
makers of the trades struck at that level's price form an initial segment of
the level's queue, in queue order. -/
theorem match_side_fifo (isBuy : Bool) (inc : Order) (levels : BookSide)
    (ts tc : Nat)
    (Hne : (levels.map Prod.fst).Pairwise (fun a b => a ≠ b)) :
    ∀ e ∈ levels, ∃ suf, e.2.orders.map Order.id =
      ((match_side isBuy inc levels ts tc).trades.filter
        (fun t => decide (t.price = e.1))).map (makerId isBuy) ++ suf := by
  induction levels generalizing inc ts tc with
  | nil => simp
  | cons e0 rest ih =>
    obtain ⟨price, level⟩ := e0
    rw [List.map_cons, List.pairwise_cons] at Hne
    by_cases hf : inc.is_filled = true
    · rw [match_side_cons_filled isBuy price level rest ts tc hf]
      intro e _
      exact ⟨e.2.orders.map Order.id, by simp⟩
    · rw [Bool.not_eq_true] at hf
      by_cases hg : gateStop isBuy inc price = true
      · rw [match_side_cons_gate isBuy price level rest ts tc hf hg]
        intro e _
        exact ⟨e.2.orders.map Order.id, by simp⟩
      · rw [Bool.not_eq_true] at hg
        have hall : ∀ t ∈ (match_level isBuy inc level.orders level.total_qty price ts tc).trades,
            t.price = price := fun t ht =>
          (match_level_trades isBuy inc level.orders level.total_qty price ts tc t ht).1
        match h3 : (match_level isBuy inc level.orders level.total_qty price ts tc).orders with
        | [] =>
          rw [match_side_cons_erase hf hg h3]
          dsimp only
          intro e he
          rw [List.mem_cons] at he
          rcases he with rfl | he
          · -- the level being walked: its own trades survive the filter,
            -- trades from deeper levels are priced at other keys
            have hfl : List.filter (fun t => decide (t.price = price))
                (match_level isBuy inc level.orders level.total_qty price ts tc).trades =
                (match_level isBuy inc level.orders level.total_qty price ts tc).trades :=
              List.filter_eq_self.mpr fun t ht => by simp [hall t ht]
            have hfr : List.filter (fun t => decide (t.price = price))
                (match_side isBuy
                  ((match_level isBuy inc level.orders level.total_qty price ts tc).incoming)
                  rest
                  ((match_level isBuy inc level.orders level.total_qty price ts tc).ts)
                  ((match_level isBuy inc level.orders level.total_qty price ts tc).tc)).trades = [] := by
              rw [List.filter_eq_nil_iff]
              intro t ht
              obtain ⟨e2, he2, q1, _, _⟩ := match_side_trades isBuy _ rest _ _ t ht
              have : price ≠ e2.1 := Hne.1 e2.1 (List.mem_map_of_mem Prod.fst he2)
              simp [q1]
              omega
            obtain ⟨suf, hsuf⟩ :=
              match_level_fifo isBuy inc level.orders level.total_qty price ts tc
            exact ⟨suf, by simpa [List.filter_append, hfl, hfr] using hsuf⟩
          · have hfl : List.filter (fun t => decide (t.price = e.1))
                (match_level isBuy inc level.orders level.total_qty price ts tc).trades = [] := by
              rw [List.filter_eq_nil_iff]
              intro t ht
              have : price ≠ e.1 := Hne.1 e.1 (List.mem_map_of_mem Prod.fst he)
              simp [hall t ht]
              omega
            obtain ⟨suf, hsuf⟩ := ih
              ((match_level isBuy inc level.orders level.total_qty price ts tc).incoming)
              ((match_level isBuy inc level.orders level.total_qty price ts tc).ts)
              ((match_level isBuy inc level.orders level.total_qty price ts tc).tc)
              Hne.2 e he
            exact ⟨suf, by simpa [List.filter_append, hfl] using hsuf⟩
        | o :: os =>
          rw [match_side_cons_keep hf hg h3]
          intro e he
          rw [List.mem_cons] at he
          rcases he with rfl | he
          · have hfl : List.filter (fun t => decide (t.price = price))
                (match_level isBuy inc level.orders level.total_qty price ts tc).trades =
                (match_level isBuy inc level.orders level.total_qty price ts tc).trades :=
              List.filter_eq_self.mpr fun t ht => by simp [hall t ht]
            obtain ⟨suf, hsuf⟩ :=
              match_level_fifo isBuy inc level.orders level.total_qty price ts tc
            exact ⟨suf, by simpa [hfl] using hsuf⟩
          · have hfl : List.filter (fun t => decide (t.price = e.1))
                (match_level isBuy inc level.orders level.total_qty price ts tc).trades = [] := by
              rw [List.filter_eq_nil_iff]
              intro t ht
              have : price ≠ e.1 := Hne.1 e.1 (List.mem_map_of_mem Prod.fst he)
              simp [hall t ht]
              omega
            exact ⟨e.2.orders.map Order.id, by simp [hfl]⟩

/-! ### Properties of insertion into a side -/

/-- Inserting an order adds it to the side's resting orders (as a multiset). -/
theorem add_to_side_perm (cmp : Int → Int → Bool) (o : Order) (s : BookSide) :
    (sideOrders (add_to_side cmp o s)).Perm (o :: sideOrders s) := by
  induction s with
  | nil => simp [add_to_side, PriceLevel.add, PriceLevel.mk0]
  | cons e rest ih =>
    obtain ⟨p, l⟩ := e
    by_cases h1 : o.price = p
    · simp only [add_to_side, h1, if_true, sideOrders_cons, PriceLevel.add]
      have : (l.orders ++ [o]) ++ sideOrders rest = l.orders ++ (o :: sideOrders rest) := by
        simp
      rw [this]
      exact List.perm_middle
    · simp only [add_to_side, h1, if_false]
      by_cases h2 : cmp o.price p = true
      · simp [h2, PriceLevel.add, PriceLevel.mk0]
      · simp only [h2, Bool.false_eq_true, if_false, sideOrders_cons]
        exact (List.Perm.append_left l.orders ih).trans List.perm_middle

/-- Every key of the side after insertion is the inserted price or an old key. -/
theorem add_to_side_keys (cmp : Int → Int → Bool) (o : Order) (s : BookSide) :
    ∀ k ∈ (add_to_side cmp o s).map Prod.fst, k = o.price ∨ k ∈ s.map Prod.fst := by
  induction s with
  | nil => simp [add_to_side]
  | cons e rest ih =>
    obtain ⟨p, l⟩ := e
    by_cases h1 : o.price = p
    · simp only [add_to_side, h1, if_true]
      intro k hk
      simp only [List.map_cons] at hk ⊢
      tauto
    · simp only [add_to_side, h1, if_false]
      by_cases h2 : cmp o.price p = true
      · simp only [h2, if_true]
        intro k hk
        simp only [List.map_cons, List.mem_cons] at hk ⊢
        tauto
      · simp only [h2, Bool.false_eq_true, if_false]
        intro k hk
        simp only [List.map_cons, List.mem_cons] at hk ⊢
        rcases hk with rfl | hk
        · tauto
        · rcases ih k hk with h | h
          · tauto
          · tauto

/-- Insertion keeps the keys sorted, for a strict total comparator. -/
theorem add_to_side_sorted (cmp : Int → Int → Bool) (rel : Int → Int → Prop)
    (Hiff : ∀ a b, cmp a b = true ↔ rel a b)
    (Htot : ∀ a b : Int, a = b ∨ rel a b ∨ rel b a)
    (Htrans : ∀ a b c : Int, rel a b → rel b c → rel a c)
    (o : Order) (s : BookSide)
    (Hs : (s.map Prod.fst).Pairwise rel) :
    ((add_to_side cmp o s).map Prod.fst).Pairwise rel := by
  induction s with
  | nil => simp [add_to_side]
  | cons e rest ih =>
    obtain ⟨p, l⟩ := e
    rw [List.map_cons, List.pairwise_cons] at Hs
    by_cases h1 : o.price = p
    · simp only [add_to_side, h1, if_true, List.map_cons, List.pairwise_cons]
      exact ⟨Hs.1, Hs.2⟩
    · simp only [add_to_side, h1, if_false]
      by_cases h2 : cmp o.price p = true
      · have hop : rel o.price p := (Hiff _ _).mp h2
        simp only [h2, if_true, List.map_cons, List.pairwise_cons]
        refine ⟨?_, Hs.1, Hs.2⟩
        intro k hk
        simp only [List.mem_cons] at hk
        rcases hk with rfl | hk
        · exact hop
        · exact Htrans _ _ _ hop (Hs.1 k hk)
      · have hpo : rel p o.price := by
          rcases Htot o.price p with h | h | h
          · exact absurd h h1
          · exact absurd ((Hiff _ _).mpr h) (by simp [h2])
          · exact h
        simp only [h2, Bool.false_eq_true, if_false, List.map_cons, List.pairwise_cons]
        refine ⟨?_, ih Hs.2⟩
        intro k hk
        rcases add_to_side_keys cmp o rest k hk with rfl | hk
        · exact hpo
        · exact Hs.1 k hk

/-- Insertion preserves level well-formedness when the inserted order is a
LIMIT with positive remaining on the right side. -/
theorem add_to_side_wf (cmp : Int → Int → Bool) (o : Order) (s : BookSide)
    (sd : Side)
    (H : ∀ e ∈ s, e.2.orders ≠ [] ∧ ∀ o2 ∈ e.2.orders,
      o2.price = e.1 ∧ o2.side = sd ∧ o2.type = OrderType.LIMIT ∧
      o2.filled_qty < o2.quantity)
    (ho : o.side = sd ∧ o.type = OrderType.LIMIT ∧ o.filled_qty < o.quantity) :
    ∀ e ∈ add_to_side cmp o s, e.2.orders ≠ [] ∧ ∀ o2 ∈ e.2.orders,
      o2.price = e.1 ∧ o2.side = sd ∧ o2.type = OrderType.LIMIT ∧
      o2.filled_qty < o2.quantity := by
  induction s with
  | nil =>
    intro e he
    simp only [add_to_side, List.mem_singleton] at he
    subst he
    simp only [PriceLevel.add, PriceLevel.mk0, List.nil_append]
    refine ⟨by simp, ?_⟩
    intro o2 ho2
    simp only [List.mem_singleton] at ho2
    subst ho2
    exact ⟨rfl, ho.1, ho.2.1, ho.2.2⟩
  | cons e0 rest ih =>
    obtain ⟨p, l⟩ := e0
    by_cases h1 : o.price = p
    · simp only [add_to_side, h1, if_true]
      intro e he
      simp only [List.mem_cons] at he
      rcases he with rfl | he
      · obtain ⟨hne, hall⟩ := H (p, l) (List.mem_cons_self _ _)
        refine ⟨by simp [PriceLevel.add], ?_⟩
        intro o2 ho2
        simp only [PriceLevel.add, List.mem_append, List.mem_singleton] at ho2
        rcases ho2 with ho2 | rfl
        · exact hall o2 ho2
        · exact ⟨h1, ho.1, ho.2.1, ho.2.2⟩
      · exact H e (List.mem_cons_of_mem _ he)
    · simp only [add_to_side, h1, if_false]
      by_cases h2 : cmp o.price p = true
      · simp only [h2, if_true]
        intro e he
        simp only [List.mem_cons] at he
        rcases he with rfl | he
        · refine ⟨by simp [PriceLevel.add, PriceLevel.mk0], ?_⟩
          intro o2 ho2
          simp only [PriceLevel.add, PriceLevel.mk0, List.nil_append,
            List.mem_singleton] at ho2
          subst ho2
          exact ⟨rfl, ho.1, ho.2.1, ho.2.2⟩
        · exact H e (List.mem_cons.mpr he)
      · simp only [h2, Bool.false_eq_true, if_false]
        intro e he
        simp only [List.mem_cons] at he
        rcases he with rfl | he
        · exact H (p, l) (List.mem_cons_self _ _)
        · exact ih (fun e2 he2 => H e2 (List.mem_cons_of_mem _ he2)) e he

/-- The inserted order rests in the level keyed by its price. -/
theorem add_to_side_mem (cmp : Int → Int → Bool) (o : Order) (s : BookSide) :
    ∃ e ∈ add_to_side cmp o s, e.1 = o.price ∧ o ∈ e.2.orders := by
  induction s with
  | nil =>
    exact ⟨(o.price, PriceLevel.mk0.add o), List.mem_singleton.mpr rfl, rfl,
      by simp [PriceLevel.add, PriceLevel.mk0]⟩
  | cons e0 rest ih =>
    obtain ⟨p, l⟩ := e0
    by_cases h1 : o.price = p
    · refine ⟨(p, l.add o), ?_, h1.symm, by simp [PriceLevel.add]⟩
      simp [add_to_side, h1]
    · by_cases h2 : cmp o.price p = true
      · refine ⟨(o.price, PriceLevel.mk0.add o), ?_, rfl,
          by simp [PriceLevel.add, PriceLevel.mk0]⟩
        simp [add_to_side, h1, h2]
      · obtain ⟨e, he, hk, hm⟩ := ih
        refine ⟨e, ?_, hk, hm⟩
        simp only [add_to_side, h1, if_false, h2, Bool.false_eq_true]
        exact List.mem_cons_of_mem _ he

/-! ### Lookup bookkeeping -/

/-- With distinct keys, erasing by key is the same as filtering the key out. -/
theorem eraseP_eq_filter_of_nodup_keys {α : Type} (key : α → Nat) (id : Nat) :
    ∀ (l : List α), (l.map key).Nodup →
      l.eraseP (fun x => decide (key x = id)) =
      l.filter (fun x => decide (¬ key x = id))
  | [], _ => rfl
  | a :: l, h => by
    rw [List.map_cons, List.nodup_cons] at h
    by_cases ha : key a = id
    · rw [List.eraseP_cons_of_pos (by simp [ha]), List.filter_cons_of_neg (by simp [ha])]
      symm
      rw [List.filter_eq_self]
      intro b hb
      simp only [decide_eq_true_eq]
      intro hb2
      have : key a ∈ l.map key := by
        have := List.mem_map_of_mem key hb
        rwa [hb2, ← ha] at this
      exact h.1 this
    · rw [List.eraseP_cons_of_neg (by simp [ha]), List.filter_cons_of_pos (by simp [ha])]
      rw [eraseP_eq_filter_of_nodup_keys key id l h.2]

/-- Erasing the key of the head of a permutation-equivalent list (whose keys
are distinct) drops exactly that entry. -/
theorem eraseP_perm_cons {lk : List (Nat × Side × Int)} {g : Nat × Side × Int}
    {others : List (Nat × Side × Int)}
    (h : lk.Perm (g :: others))
    (hnd : ((g :: others).map Prod.fst).Nodup) :
    (lk.eraseP (fun x => decide (x.1 = g.1))).Perm others := by
  have hlknd : (lk.map Prod.fst).Nodup :=
    ((h.map Prod.fst).nodup_iff).mpr hnd
  rw [List.map_cons, List.nodup_cons] at hnd
  rw [eraseP_eq_filter_of_nodup_keys Prod.fst g.1 lk hlknd]
  have hfilter := h.filter (fun x => decide (¬ x.1 = g.1))
  rw [List.filter_cons_of_neg (by simp)] at hfilter
  have hothers : List.filter (fun x => decide (¬ x.1 = g.1)) others = others := by
    rw [List.filter_eq_self]
    intro b hb
    simp only [decide_eq_true_eq]
    intro hb2
    exact hnd.1 (hb2 ▸ List.mem_map_of_mem Prod.fst hb)
  rwa [hothers] at hfilter

/-- Erasing, one id at a time, the triples of a removed segment from a lookup
permutation-equivalent to `pre ++ gone ++ post` leaves `pre ++ post`. -/
theorem foldl_eraseP_perm (gone : List Order) :
    ∀ (lk pre post : List (Nat × Side × Int)),
      lk.Perm (pre ++ (gone.map trip ++ post)) →
      ((pre ++ (gone.map trip ++ post)).map Prod.fst).Nodup →
      ((gone.map Order.id).foldl
        (fun l id => l.eraseP (fun x => decide (x.1 = id))) lk).Perm (pre ++ post) := by
  induction gone with
  | nil => intro lk pre post h _; simpa using h
  | cons g gs ih =>
    intro lk pre post h hnd
    simp only [List.map_cons, List.foldl_cons]
    have hmid : lk.Perm (trip g :: (pre ++ (gs.map trip ++ post))) := by
      refine h.trans ?_
      exact List.perm_middle
    have hnd2 : ((trip g :: (pre ++ (gs.map trip ++ post))).map Prod.fst).Nodup := by
      have hp : (pre ++ (trip g :: (gs.map trip ++ post))).Perm
          (trip g :: (pre ++ (gs.map trip ++ post))) := List.perm_middle
      exact ((hp.map Prod.fst).nodup_iff).mp (by simpa using hnd)
    have hstep := eraseP_perm_cons hmid hnd2
    refine ih _ pre post hstep ?_
    have hsub : List.Sublist (pre ++ (gs.map trip ++ post))
        (trip g :: (pre ++ (gs.map trip ++ post))) :=
      List.sublist_cons_self _ _
    exact (hsub.map Prod.fst).nodup hnd2

/-- Folding `remove_from_lookup` touches only the lookup. -/
theorem foldl_remove_from_lookup (ids : List Nat) (b : OrderBook) :
    (ids.foldl OrderBook.remove_from_lookup b).bids = b.bids ∧
    (ids.foldl OrderBook.remove_from_lookup b).asks = b.asks ∧
    (ids.foldl OrderBook.remove_from_lookup b).order_lookup =
      ids.foldl (fun l id => l.eraseP (fun e => decide (e.1 = id))) b.order_lookup := by
  induction ids generalizing b with
  | nil => exact ⟨rfl, rfl, rfl⟩
  | cons i is ih =>
    simp only [List.foldl_cons]
    exact ih (b.remove_from_lookup i)

/-! ### Properties of cancellation in a side -/

/-- `PriceLevel::remove` erases the first queue entry with the given id. -/
theorem PriceLevel.remove_orders (l : PriceLevel) (id : Nat) :
    (l.remove id).orders = l.orders.eraseP (fun o => decide (o.id = id)) := by
  unfold PriceLevel.remove
  split
  · rename_i hnone
    rw [List.find?_eq_none] at hnone
    rw [List.eraseP_of_forall_not]
    intro a ha
    exact hnone a ha
  · rfl

/-- When every order bearing the cancelled id sits in the level keyed `p` (and
keys are distinct), level surgery removes exactly the first such order from
the side's flattened order sequence. -/
theorem cancel_in_side_orders (id : Nat) (p : Int) (s : BookSide)
    (Hkeys : (s.map Prod.fst).Pairwise (fun a b => a ≠ b))
    (H : ∀ e ∈ s, ∀ o ∈ e.2.orders, o.id = id → e.1 = p) :
    sideOrders (cancel_in_side id p s) =
      (sideOrders s).eraseP (fun o => decide (o.id = id)) := by
  induction s with
  | nil => simp [cancel_in_side]
  | cons e0 rest ih =>
    obtain ⟨q, l⟩ := e0
    rw [List.map_cons, List.pairwise_cons] at Hkeys
    by_cases hq : q = p
    · subst hq
      have hrest : ∀ o ∈ sideOrders rest, ¬ (fun o => decide (o.id = id)) o = true := by
        intro o ho hid
        simp only [decide_eq_true_eq] at hid
        obtain ⟨e2, he2, ho2⟩ : ∃ e2 ∈ rest, o ∈ e2.2.orders := by
          clear ih H Hkeys
          induction rest with
          | nil => simp at ho
          | cons e3 r3 ih3 =>
            rw [sideOrders_cons, List.mem_append] at ho
            rcases ho with ho | ho
            · exact ⟨e3, List.mem_cons_self _ _, ho⟩
            · obtain ⟨e4, he4, h4⟩ := ih3 ho
              exact ⟨e4, List.mem_cons_of_mem _ he4, h4⟩
        have : e2.1 = q := H e2 (List.mem_cons_of_mem _ he2) o ho2 hid
        exact Hkeys.1 e2.1 (List.mem_map_of_mem Prod.fst he2) this.symm
      simp only [cancel_in_side, sideOrders_cons, if_true]
      by_cases hmem : ∃ o ∈ l.orders, o.id = id
      · obtain ⟨o, ho, hid⟩ := hmem
        rw [List.eraseP_append_left (a := o) (by simp [hid]) (sideOrders rest) ho]
        by_cases hemp : (l.remove id).is_empty = true
        · rw [if_pos hemp]
          have h0 : (l.remove id).orders = [] := by
            simpa [PriceLevel.is_empty, List.isEmpty_iff] using hemp
          rw [PriceLevel.remove_orders] at h0
          rw [h0, List.nil_append]
        · rw [if_neg hemp, sideOrders_cons, PriceLevel.remove_orders]
      · have hl : ∀ o ∈ l.orders, ¬ (fun o => decide (o.id = id)) o = true := by
          intro o ho hid
          simp only [decide_eq_true_eq] at hid
          exact hmem ⟨o, ho, hid⟩
        rw [List.eraseP_append_right _ hl, List.eraseP_of_forall_not hrest]
        have hlev : l.remove id = l := by
          unfold PriceLevel.remove
          split
          · rfl
          · rename_i o hfind
            exact absurd ⟨o, List.mem_of_find?_eq_some hfind,
              by simpa using List.find?_some hfind⟩ hmem
        rw [hlev]
        by_cases hemp : l.is_empty = true
        · rw [if_pos hemp]
          have h0 : l.orders = [] := by
            simpa [PriceLevel.is_empty, List.isEmpty_iff] using hemp
          rw [h0, List.nil_append]
        · rw [if_neg hemp, sideOrders_cons]
    · have hl : ∀ o ∈ l.orders, ¬ (fun o => decide (o.id = id)) o = true := by
        intro o ho hid
        simp only [decide_eq_true_eq] at hid
        exact hq (H (q, l) (List.mem_cons_self _ _) o ho hid)
      simp only [cancel_in_side, hq, if_false, sideOrders_cons]
      rw [List.eraseP_append_right _ hl, ih Hkeys.2
        (fun e2 he2 => H e2 (List.mem_cons_of_mem _ he2))]

/-- Level surgery only drops or shrinks levels: the keys form a sublist. -/
theorem cancel_in_side_keys (id : Nat) (p : Int) (s : BookSide) :
    List.Sublist ((cancel_in_side id p s).map Prod.fst) (s.map Prod.fst) := by
  induction s with
  | nil => simp [cancel_in_side]
  | cons e0 rest ih =>
    obtain ⟨q, l⟩ := e0
    by_cases hq : q = p
    · simp only [cancel_in_side, hq, if_true]
      by_cases hemp : ((l.remove id).is_empty) = true
      · simp only [hemp, if_true, List.map_cons]
        exact (List.Sublist.refl _).cons _
      · simp only [hemp, Bool.false_eq_true, if_false, List.map_cons]
        exact (List.Sublist.refl _).cons₂ _
    · simp only [cancel_in_side, hq, if_false, List.map_cons]
      exact ih.cons₂ _

/-- Level surgery preserves level well-formedness. -/
theorem cancel_in_side_wf (id : Nat) (p : Int) (s : BookSide) (sd : Side)
    (H : ∀ e ∈ s, e.2.orders ≠ [] ∧ ∀ o ∈ e.2.orders,
      o.price = e.1 ∧ o.side = sd ∧ o.type = OrderType.LIMIT ∧
      o.filled_qty < o.quantity) :
    ∀ e ∈ cancel_in_side id p s, e.2.orders ≠ [] ∧ ∀ o ∈ e.2.orders,
      o.price = e.1 ∧ o.side = sd ∧ o.type = OrderType.LIMIT ∧
      o.filled_qty < o.quantity := by
  induction s with
  | nil => simp [cancel_in_side]
  | cons e0 rest ih =>
    obtain ⟨q, l⟩ := e0
    by_cases hq : q = p
    · simp only [cancel_in_side, hq, if_true]
      by_cases hemp : ((l.remove id).is_empty) = true
      · simp only [hemp, if_true]
        exact fun e he => H e (List.mem_cons_of_mem _ he)
      · simp only [hemp, Bool.false_eq_true, if_false]
        intro e he
        rw [List.mem_cons] at he
        rcases he with rfl | he
        · refine ⟨by simpa [PriceLevel.is_empty, List.isEmpty_iff] using hemp, ?_⟩
          intro o ho
          rw [PriceLevel.remove_orders] at ho
          have := (H (q, l) (List.mem_cons_self _ _)).2 o
            ((List.eraseP_sublist l.orders).mem ho)
          simpa [← hq] using this
        · exact H e (List.mem_cons_of_mem _ he)
    · simp only [cancel_in_side, hq, if_false]
      intro e he
      rw [List.mem_cons] at he
      rcases he with rfl | he
      · exact H (q, l) (List.mem_cons_self _ _)
      · exact ih (fun e2 he2 => H e2 (List.mem_cons_of_mem _ he2)) e he

/-! ### The book and engine invariants -/

/-- Spec §3, invariants 1–4 restricted to one side: every level is non-empty
and each resting order is a LIMIT order with positive remaining, keyed by its
own price on its own side. -/
def ordersKeyed (sd : Side) (s : BookSide) : Prop :=
  ∀ e ∈ s, e.2.orders ≠ [] ∧ ∀ o ∈ e.2.orders,
    o.price = e.1 ∧ o.side = sd ∧ o.type = OrderType.LIMIT ∧
    o.filled_qty < o.quantity

/-- The order book invariant (spec §3): sorted sides (bids descending, asks
ascending), well-keyed non-empty levels, globally unique order ids, a lookup
that matches the resting orders exactly, and no crossing pair of keys. -/
structure BookWF (b : OrderBook) : Prop where
  asks_sorted : (b.asks.map Prod.fst).Pairwise (fun a b : Int => a < b)
  bids_sorted : (b.bids.map Prod.fst).Pairwise (fun a b : Int => b < a)
  bids_wf : ordersKeyed Side.BUY b.bids
  asks_wf : ordersKeyed Side.SELL b.asks
  ids_nodup : ((allOrders b).map Order.id).Nodup
  lookup_perm : b.order_lookup.Perm ((allOrders b).map trip)
  uncrossed : ∀ pb ∈ b.bids.map Prod.fst, ∀ pa ∈ b.asks.map Prod.fst, pb < pa

/-- The engine invariant: a well-formed book whose resting ids are all below
the id counter. -/
structure EngineWF (en : MatchingEngine) : Prop where
  book : BookWF en.book
  ids_lt : ∀ o ∈ allOrders en.book, o.id < en.next_order_id

theorem engineWF_mk0 : EngineWF MatchingEngine.mk0 := by
  refine ⟨⟨?_, ?_, ?_, ?_, ?_, ?_, ?_⟩, ?_⟩ <;>
    simp [MatchingEngine.mk0, OrderBook.mk0, allOrders, ordersKeyed]

/-- Membership in the flattened side is membership in some level. -/
theorem mem_sideOrders {s : BookSide} {o : Order} :
    o ∈ sideOrders s ↔ ∃ e ∈ s, o ∈ e.2.orders := by
  induction s with
  | nil => simp
  | cons e0 rest ih =>
    rw [sideOrders_cons, List.mem_append, ih]
    constructor
    · rintro (h | ⟨e, he, h⟩)
      · exact ⟨e0, List.mem_cons_self _ _, h⟩
      · exact ⟨e, List.mem_cons_of_mem _ he, h⟩
    · rintro ⟨e, he, h⟩
      rw [List.mem_cons] at he
      rcases he with rfl | he
      · exact Or.inl h
      · exact Or.inr ⟨e, he, h⟩

/-- Triple keys are order ids. -/
theorem map_trip_fst (l : List Order) :
    (l.map trip).map Prod.fst = l.map Order.id := by
  simp [List.map_map]

/-- From a head-sorted key list, the head key relates to every key. -/
theorem head_rel_of_pairwise {rel : Int → Int → Prop} {a : Int} {ks : List Int}
    (h : (a :: ks).Pairwise rel) :
    ∀ x ∈ a :: ks, x = a ∨ rel a x := by
  rw [List.pairwise_cons] at h
  intro x hx
  rw [List.mem_cons] at hx
  rcases hx with rfl | hx
  · exact Or.inl rfl
  · exact Or.inr (h.1 x hx)

/-- `process_order` on a BUY, written out. -/
theorem process_order_buy (en : MatchingEngine) (t : OrderType) (p : Int) (q : Nat) :
    en.process_order Side.BUY t p q =
      (let order : Order := ⟨en.next_order_id, en.next_timestamp, p, q, 0, Side.BUY, t⟩
       let r := match_side true order en.book.asks (en.next_timestamp + 1) en.trade_count
       let book1 : OrderBook := { en.book with asks := r.levels }
       let book2 := r.removed.foldl OrderBook.remove_from_lookup book1
       let book3 := if r.incoming.is_filled then book2
         else match t with
           | OrderType.LIMIT => book2.add_order r.incoming
           | OrderType.MARKET => book2
       ({ book := book3, next_order_id := en.next_order_id + 1, next_timestamp := r.ts,
          trade_count := r.tc, orders_processed := en.orders_processed + 1 }, r.trades)) := rfl

/-- `process_order` on a SELL, written out. -/
theorem process_order_sell (en : MatchingEngine) (t : OrderType) (p : Int) (q : Nat) :
    en.process_order Side.SELL t p q =
      (let order : Order := ⟨en.next_order_id, en.next_timestamp, p, q, 0, Side.SELL, t⟩
       let r := match_side false order en.book.bids (en.next_timestamp + 1) en.trade_count
       let book1 : OrderBook := { en.book with bids := r.levels }
       let book2 := r.removed.foldl OrderBook.remove_from_lookup book1
       let book3 := if r.incoming.is_filled then book2
         else match t with
           | OrderType.LIMIT => book2.add_order r.incoming
           | OrderType.MARKET => book2
       ({ book := book3, next_order_id := en.next_order_id + 1, next_timestamp := r.ts,
          trade_count := r.tc, orders_processed := en.orders_processed + 1 }, r.trades)) := rfl

/-- `add_order` on a buy order, written out. -/
theorem add_order_buy (b : OrderBook) (o : Order) (h : o.side = Side.BUY) :
    b.add_order o =
      { b with
        bids := add_to_side bidCmp o b.bids,
        order_lookup := (o.id, o.side, o.price) ::
          b.order_lookup.eraseP (fun e => decide (e.1 = o.id)) } := by
  simp only [OrderBook.add_order, h]

/-- `add_order` on a sell order, written out. -/
theorem add_order_sell (b : OrderBook) (o : Order) (h : o.side = Side.SELL) :
    b.add_order o =
      { b with
        asks := add_to_side askCmp o b.asks,
        order_lookup := (o.id, o.side, o.price) ::
          b.order_lookup.eraseP (fun e => decide (e.1 = o.id)) } := by
  simp only [OrderBook.add_order, h]

/-- Processing a BUY order preserves the engine invariant. -/
theorem engineWF_process_buy (en : MatchingEngine) (hwf : EngineWF en)
    (t : OrderType) (p : Int) (q : Nat) :
    EngineWF (en.process_order Side.BUY t p q).1 := by
  rw [process_order_buy]
  dsimp only
  obtain ⟨gone, htr, hrm⟩ := match_side_trips true
    ⟨en.next_order_id, en.next_timestamp, p, q, 0, Side.BUY, t⟩
    en.book.asks (en.next_timestamp + 1) en.trade_count
  obtain ⟨k, hkeys⟩ := match_side_keys true
    ⟨en.next_order_id, en.next_timestamp, p, q, 0, Side.BUY, t⟩
    en.book.asks (en.next_timestamp + 1) en.trade_count
  set r := match_side true ⟨en.next_order_id, en.next_timestamp, p, q, 0, Side.BUY, t⟩
    en.book.asks (en.next_timestamp + 1) en.trade_count with hrdef
  have hasks2_wf : ordersKeyed Side.SELL r.levels :=
    match_side_levels_wf true _ en.book.asks _ _ Side.SELL hwf.book.asks_wf
  have hasks2_sorted : (r.levels.map Prod.fst).Pairwise (fun a b : Int => a < b) := by
    rw [hkeys]
    exact List.Pairwise.sublist (List.drop_sublist _ _) hwf.book.asks_sorted
  have hids_suffix : (sideOrders en.book.asks).map Order.id =
      gone.map Order.id ++ (sideOrders r.levels).map Order.id := by
    have h2 := congrArg (List.map Prod.fst) htr
    simpa only [map_trip_fst, List.map_append] using h2
  have hb2 := foldl_remove_from_lookup r.removed { en.book with asks := r.levels }
  set book2 := r.removed.foldl OrderBook.remove_from_lookup
    { en.book with asks := r.levels } with hbook2
  have hlk2 : book2.order_lookup.Perm
      ((sideOrders en.book.bids).map trip ++ (sideOrders r.levels).map trip) := by
    rw [hb2.2.2, hrm]
    apply foldl_eraseP_perm gone
    · have h2 := hwf.book.lookup_perm
      rw [allOrders, List.map_append, htr] at h2
      exact h2
    · rw [List.map_append, List.map_append, map_trip_fst,
        map_trip_fst, map_trip_fst, ← hids_suffix]
      have hn := hwf.book.ids_nodup
      rwa [allOrders, List.map_append] at hn
  have hasub : List.Sublist ((sideOrders r.levels).map Order.id)
      ((sideOrders en.book.asks).map Order.id) := by
    rw [hids_suffix]
    exact List.sublist_append_right _ _
  have hnodup2 : (((sideOrders en.book.bids).map Order.id) ++
      ((sideOrders r.levels).map Order.id)).Nodup := by
    have hn := hwf.book.ids_nodup
    rw [allOrders, List.map_append] at hn
    exact (hasub.append_left _).nodup hn
  have hkeys_sub : ∀ pa ∈ r.levels.map Prod.fst, pa ∈ en.book.asks.map Prod.fst := by
    intro pa hpa
    rw [hkeys] at hpa
    exact (List.drop_sublist _ _).subset hpa
  have hidlt2 : ∀ o ∈ sideOrders en.book.bids ++ sideOrders r.levels,
      o.id < en.next_order_id := by
    intro o ho
    rw [List.mem_append] at ho
    rcases ho with ho | ho
    · exact hwf.ids_lt o (by rw [allOrders, List.mem_append]; exact Or.inl ho)
    · have h2 : o.id ∈ (sideOrders en.book.asks).map Order.id :=
        hasub.subset (List.mem_map_of_mem Order.id ho)
      obtain ⟨o0, ho0, hid⟩ := List.mem_map.mp h2
      rw [← hid]
      exact hwf.ids_lt o0 (by rw [allOrders, List.mem_append]; exact Or.inr ho0)
  obtain ⟨mi1, mi2, mi3, mi4, mi5, mi6, mi7, mi8⟩ := match_side_incoming true
    ⟨en.next_order_id, en.next_timestamp, p, q, 0, Side.BUY, t⟩
    en.book.asks (en.next_timestamp + 1) en.trade_count
  rw [← hrdef] at mi1 mi2 mi3 mi4 mi5 mi6 mi7 mi8
  by_cases hfull : r.incoming.is_filled = true
  · rw [if_pos hfull]
    refine ⟨⟨?_, ?_, ?_, ?_, ?_, ?_, ?_⟩, ?_⟩
    · rw [hb2.2.1]; exact hasks2_sorted
    · rw [hb2.1]; exact hwf.book.bids_sorted
    · rw [hb2.1]; exact hwf.book.bids_wf
    · rw [hb2.2.1]; exact hasks2_wf
    · rw [allOrders, hb2.1, hb2.2.1, List.map_append]; exact hnodup2
    · rw [allOrders, hb2.1, hb2.2.1, List.map_append]; exact hlk2
    · rw [hb2.1, hb2.2.1]
      intro pb hpb pa hpa
      exact hwf.book.uncrossed pb hpb pa (hkeys_sub pa hpa)
    · rw [allOrders, hb2.1, hb2.2.1]
      intro o ho
      exact Nat.lt_succ_of_lt (hidlt2 o ho)
  · rw [Bool.not_eq_true] at hfull
    rw [if_neg (by simp [hfull])]
    cases t with
    | MARKET =>
      refine ⟨⟨?_, ?_, ?_, ?_, ?_, ?_, ?_⟩, ?_⟩
      · rw [hb2.2.1]; exact hasks2_sorted
      · rw [hb2.1]; exact hwf.book.bids_sorted
      · rw [hb2.1]; exact hwf.book.bids_wf
      · rw [hb2.2.1]; exact hasks2_wf
      · rw [allOrders, hb2.1, hb2.2.1, List.map_append]; exact hnodup2
      · rw [allOrders, hb2.1, hb2.2.1, List.map_append]; exact hlk2
      · rw [hb2.1, hb2.2.1]
        intro pb hpb pa hpa
        exact hwf.book.uncrossed pb hpb pa (hkeys_sub pa hpa)
      · rw [allOrders, hb2.1, hb2.2.1]
        intro o ho
        exact Nat.lt_succ_of_lt (hidlt2 o ho)
    | LIMIT =>
      have hside : r.incoming.side = Side.BUY := mi3
      have htype : r.incoming.type = OrderType.LIMIT := mi4
      have hprice : r.incoming.price = p := mi2
      have hid : r.incoming.id = en.next_order_id := mi1
      have hfl : r.incoming.filled_qty < r.incoming.quantity :=
        Order.is_filled_false_iff.mp hfull
      rw [add_order_buy book2 r.incoming hside]
      -- the fresh id is not in the post-matching lookup
      have hfresh : ∀ x ∈ book2.order_lookup, ¬ (fun e => decide (e.1 = r.incoming.id)) x = true := by
        intro x hx hx2
        simp only [decide_eq_true_eq] at hx2
        have hx3 := (hlk2.mem_iff).mp hx
        rw [← List.map_append] at hx3
        obtain ⟨o0, ho0, ho0e⟩ := List.mem_map.mp hx3
        have : o0.id < en.next_order_id := hidlt2 o0 ho0
        rw [← ho0e] at hx2
        simp only [trip] at hx2
        omega
      rw [List.eraseP_of_forall_not hfresh]
      have hperm_bids : (sideOrders (add_to_side bidCmp r.incoming en.book.bids)).Perm
          (r.incoming :: sideOrders en.book.bids) := add_to_side_perm _ _ _
      have huncross_new : ∀ pa ∈ r.levels.map Prod.fst, r.incoming.price < pa := by
        intro pa hpa
        rcases match_side_stop true
          ⟨en.next_order_id, en.next_timestamp, p, q, 0, Side.BUY, OrderType.LIMIT⟩
          en.book.asks (en.next_timestamp + 1) en.trade_count with hst | hst | hst
        · rw [← hrdef] at hst
          rw [hst] at hfull
          cases hfull
        · rw [← hrdef] at hst
          rw [hst] at hpa
          simp at hpa
        · obtain ⟨p0, l0, rest0, hlev, hgate⟩ := hst
          rw [← hrdef] at hlev hgate
          simp only [gateStop, Bool.and_eq_true, decide_eq_true_eq] at hgate
          have hlt : r.incoming.price < p0 := by
            have := hgate.2
            simpa using this
          rw [hlev] at hasks2_sorted hpa
          rcases head_rel_of_pairwise hasks2_sorted pa hpa with rfl | h2
          · exact hlt
          · exact lt_trans hlt h2
      refine ⟨⟨?_, ?_, ?_, ?_, ?_, ?_, ?_⟩, ?_⟩
      · dsimp only
        rw [hb2.2.1]
        exact hasks2_sorted
      · dsimp only
        rw [hb2.1]
        refine add_to_side_sorted bidCmp (fun a b : Int => b < a) ?_ ?_ ?_ _ _
          hwf.book.bids_sorted
        · intro a b; simp [bidCmp]
        · intro a b; omega
        · intro a b c h1 h2; omega
      · dsimp only
        rw [hb2.1]
        exact add_to_side_wf bidCmp _ _ Side.BUY hwf.book.bids_wf ⟨hside, htype, hfl⟩
      · dsimp only
        rw [hb2.2.1]
        exact hasks2_wf
      · rw [allOrders]
        dsimp only
        rw [hb2.1, hb2.2.1, List.map_append]
        have hp2 : ((sideOrders (add_to_side bidCmp r.incoming en.book.bids)).map Order.id ++
            (sideOrders r.levels).map Order.id).Perm
            (r.incoming.id :: ((sideOrders en.book.bids).map Order.id ++
              (sideOrders r.levels).map Order.id)) := by
          have h3 : (sideOrders (add_to_side bidCmp r.incoming en.book.bids)).Perm
              (r.incoming :: sideOrders en.book.bids) := add_to_side_perm _ _ _
          exact ((h3.map Order.id).append_right _)
        rw [hp2.nodup_iff, List.nodup_cons]
        refine ⟨?_, hnodup2⟩
        intro hmem
        rw [List.mem_append] at hmem
        rcases hmem with hmem | hmem <;>
          obtain ⟨o0, ho0, ho0e⟩ := List.mem_map.mp hmem
        · have := hidlt2 o0 (List.mem_append_left _ ho0)
          omega
        · have := hidlt2 o0 (List.mem_append_right _ ho0)
          omega
      · rw [allOrders]
        dsimp only
        rw [hb2.1, hb2.2.1, List.map_append]
        have h3 : (sideOrders (add_to_side bidCmp r.incoming en.book.bids)).Perm
            (r.incoming :: sideOrders en.book.bids) := add_to_side_perm _ _ _
        have h4 : ((sideOrders (add_to_side bidCmp r.incoming en.book.bids)).map trip ++
            (sideOrders r.levels).map trip).Perm
            (trip r.incoming :: ((sideOrders en.book.bids).map trip ++
              (sideOrders r.levels).map trip)) :=
          (h3.map trip).append_right _
        refine List.Perm.trans ?_ h4.symm
        exact List.Perm.cons _ hlk2
      · dsimp only
        rw [hb2.1, hb2.2.1]
        intro pb hpb pa hpa
        rcases add_to_side_keys bidCmp r.incoming en.book.bids pb hpb with rfl | hpb2
        · exact huncross_new pa hpa
        · exact hwf.book.uncrossed pb hpb2 pa (hkeys_sub pa hpa)
      · rw [allOrders]
        dsimp only
        rw [hb2.1, hb2.2.1]
        intro o ho
        rw [List.mem_append] at ho
        rcases ho with ho | ho
        · have h6 := (hperm_bids.mem_iff).mp ho
          rw [List.mem_cons] at h6
          rcases h6 with rfl | h6
          · omega
          · have h5 : o.id < en.next_order_id :=
              hidlt2 o (List.mem_append_left _ h6)
            omega
        · have h5 : o.id < en.next_order_id := hidlt2 o (List.mem_append_right _ ho)
          omega

/-- Processing a SELL order preserves the engine invariant (mirror of
`engineWF_process_buy`). -/
theorem engineWF_process_sell (en : MatchingEngine) (hwf : EngineWF en)
    (t : OrderType) (p : Int) (q : Nat) :
    EngineWF (en.process_order Side.SELL t p q).1 := by
  rw [process_order_sell]
  dsimp only
  obtain ⟨gone, htr, hrm⟩ := match_side_trips false
    ⟨en.next_order_id, en.next_timestamp, p, q, 0, Side.SELL, t⟩
    en.book.bids (en.next_timestamp + 1) en.trade_count
  obtain ⟨k, hkeys⟩ := match_side_keys false
    ⟨en.next_order_id, en.next_timestamp, p, q, 0, Side.SELL, t⟩
    en.book.bids (en.next_timestamp + 1) en.trade_count
  set r := match_side false ⟨en.next_order_id, en.next_timestamp, p, q, 0, Side.SELL, t⟩
    en.book.bids (en.next_timestamp + 1) en.trade_count with hrdef
  have hbids2_wf : ordersKeyed Side.BUY r.levels :=
    match_side_levels_wf false _ en.book.bids _ _ Side.BUY hwf.book.bids_wf
  have hbids2_sorted : (r.levels.map Prod.fst).Pairwise (fun a b : Int => b < a) := by
    rw [hkeys]
    exact List.Pairwise.sublist (List.drop_sublist _ _) hwf.book.bids_sorted
  have hids_suffix : (sideOrders en.book.bids).map Order.id =
      gone.map Order.id ++ (sideOrders r.levels).map Order.id := by
    have h2 := congrArg (List.map Prod.fst) htr
    simpa only [map_trip_fst, List.map_append] using h2
  have hb2 := foldl_remove_from_lookup r.removed { en.book with bids := r.levels }
  set book2 := r.removed.foldl OrderBook.remove_from_lookup
    { en.book with bids := r.levels } with hbook2
  have hlk2 : book2.order_lookup.Perm
      ((sideOrders r.levels).map trip ++ (sideOrders en.book.asks).map trip) := by
    rw [hb2.2.2, hrm]
    have h5 := foldl_eraseP_perm gone en.book.order_lookup []
      ((sideOrders r.levels).map trip ++ (sideOrders en.book.asks).map trip) ?_ ?_
    · simpa using h5
    · have h2 := hwf.book.lookup_perm
      rw [allOrders, List.map_append, htr, List.append_assoc] at h2
      simpa using h2
    · rw [List.nil_append, List.map_append, List.map_append, map_trip_fst,
        map_trip_fst, map_trip_fst, ← List.append_assoc, ← hids_suffix]
      have hn := hwf.book.ids_nodup
      rwa [allOrders, List.map_append] at hn
  have hbsub : List.Sublist ((sideOrders r.levels).map Order.id)
      ((sideOrders en.book.bids).map Order.id) := by
    rw [hids_suffix]
    exact List.sublist_append_right _ _
  have hnodup2 : (((sideOrders r.levels).map Order.id) ++
      ((sideOrders en.book.asks).map Order.id)).Nodup := by
    have hn := hwf.book.ids_nodup
    rw [allOrders, List.map_append] at hn
    exact (hbsub.append_right _).nodup hn
  have hkeys_sub : ∀ pb ∈ r.levels.map Prod.fst, pb ∈ en.book.bids.map Prod.fst := by
    intro pb hpb
    rw [hkeys] at hpb
    exact (List.drop_sublist _ _).subset hpb
  have hidlt2 : ∀ o ∈ sideOrders r.levels ++ sideOrders en.book.asks,
      o.id < en.next_order_id := by
    intro o ho
    rw [List.mem_append] at ho
    rcases ho with ho | ho
    · have h2 : o.id ∈ (sideOrders en.book.bids).map Order.id :=
        hbsub.subset (List.mem_map_of_mem Order.id ho)
      obtain ⟨o0, ho0, hid⟩ := List.mem_map.mp h2
      rw [← hid]
      exact hwf.ids_lt o0 (by rw [allOrders, List.mem_append]; exact Or.inl ho0)
    · exact hwf.ids_lt o (by rw [allOrders, List.mem_append]; exact Or.inr ho)
  obtain ⟨mi1, mi2, mi3, mi4, mi5, mi6, mi7, mi8⟩ := match_side_incoming false
    ⟨en.next_order_id, en.next_timestamp, p, q, 0, Side.SELL, t⟩
    en.book.bids (en.next_timestamp + 1) en.trade_count
  rw [← hrdef] at mi1 mi2 mi3 mi4 mi5 mi6 mi7 mi8
  by_cases hfull : r.incoming.is_filled = true
  · rw [if_pos hfull]
    refine ⟨⟨?_, ?_, ?_, ?_, ?_, ?_, ?_⟩, ?_⟩
    · rw [hb2.2.1]; exact hwf.book.asks_sorted
    · rw [hb2.1]; exact hbids2_sorted
    · rw [hb2.1]; exact hbids2_wf
    · rw [hb2.2.1]; exact hwf.book.asks_wf
    · rw [allOrders, hb2.1, hb2.2.1, List.map_append]; exact hnodup2
    · rw [allOrders, hb2.1, hb2.2.1, List.map_append]; exact hlk2
    · rw [hb2.1, hb2.2.1]
      intro pb hpb pa hpa
      exact hwf.book.uncrossed pb (hkeys_sub pb hpb) pa hpa
    · rw [allOrders, hb2.1, hb2.2.1]
      intro o ho
      exact Nat.lt_succ_of_lt (hidlt2 o ho)
  · rw [Bool.not_eq_true] at hfull
    rw [if_neg (by simp [hfull])]
    cases t with
    | MARKET =>
      refine ⟨⟨?_, ?_, ?_, ?_, ?_, ?_, ?_⟩, ?_⟩
      · rw [hb2.2.1]; exact hwf.book.asks_sorted
      · rw [hb2.1]; exact hbids2_sorted
      · rw [hb2.1]; exact hbids2_wf
      · rw [hb2.2.1]; exact hwf.book.asks_wf
      · rw [allOrders, hb2.1, hb2.2.1, List.map_append]; exact hnodup2
      · rw [allOrders, hb2.1, hb2.2.1, List.map_append]; exact hlk2
      · rw [hb2.1, hb2.2.1]
        intro pb hpb pa hpa
        exact hwf.book.uncrossed pb (hkeys_sub pb hpb) pa hpa
      · rw [allOrders, hb2.1, hb2.2.1]
        intro o ho
        exact Nat.lt_succ_of_lt (hidlt2 o ho)
    | LIMIT =>
      have hside : r.incoming.side = Side.SELL := mi3
      have htype : r.incoming.type = OrderType.LIMIT := mi4
      have hprice : r.incoming.price = p := mi2
      have hid : r.incoming.id = en.next_order_id := mi1
      have hfl : r.incoming.filled_qty < r.incoming.quantity :=
        Order.is_filled_false_iff.mp hfull
      rw [add_order_sell book2 r.incoming hside]
      have hfresh : ∀ x ∈ book2.order_lookup,
          ¬ (fun e => decide (e.1 = r.incoming.id)) x = true := by
        intro x hx hx2
        simp only [decide_eq_true_eq] at hx2
        have hx3 := (hlk2.mem_iff).mp hx
        rw [← List.map_append] at hx3
        obtain ⟨o0, ho0, ho0e⟩ := List.mem_map.mp hx3
        have : o0.id < en.next_order_id := hidlt2 o0 ho0
        rw [← ho0e] at hx2
        simp only [trip] at hx2
        omega
      rw [List.eraseP_of_forall_not hfresh]
      have hperm_asks : (sideOrders (add_to_side askCmp r.incoming en.book.asks)).Perm
          (r.incoming :: sideOrders en.book.asks) := add_to_side_perm _ _ _
      have huncross_new : ∀ pb ∈ r.levels.map Prod.fst, pb < r.incoming.price := by
        intro pb hpb
        rcases match_side_stop false
          ⟨en.next_order_id, en.next_timestamp, p, q, 0, Side.SELL, OrderType.LIMIT⟩
          en.book.bids (en.next_timestamp + 1) en.trade_count with hst | hst | hst
        · rw [← hrdef] at hst
          rw [hst] at hfull
          cases hfull
        · rw [← hrdef] at hst
          rw [hst] at hpb
          simp at hpb
        · obtain ⟨p0, l0, rest0, hlev, hgate⟩ := hst
          rw [← hrdef] at hlev hgate
          simp only [gateStop, Bool.and_eq_true, decide_eq_true_eq] at hgate
          have hlt : p0 < r.incoming.price := by
            have := hgate.2
            simpa using this
          rw [hlev] at hbids2_sorted hpb
          rcases head_rel_of_pairwise hbids2_sorted pb hpb with rfl | h2
          · exact hlt
          · exact lt_trans h2 hlt
      refine ⟨⟨?_, ?_, ?_, ?_, ?_, ?_, ?_⟩, ?_⟩
      · dsimp only
        rw [hb2.2.1]
        refine add_to_side_sorted askCmp (fun a b : Int => a < b) ?_ ?_ ?_ _ _
          hwf.book.asks_sorted
        · intro a b; simp [askCmp]
        · intro a b; omega
        · intro a b c h1 h2; omega
      · dsimp only
        rw [hb2.1]
        exact hbids2_sorted
      · dsimp only
        rw [hb2.1]
        exact hbids2_wf
      · dsimp only
        rw [hb2.2.1]
        exact add_to_side_wf askCmp _ _ Side.SELL hwf.book.asks_wf ⟨hside, htype, hfl⟩
      · rw [allOrders]
        dsimp only
        rw [hb2.1, hb2.2.1, List.map_append]
        have hp2 : ((sideOrders r.levels).map Order.id ++
            (sideOrders (add_to_side askCmp r.incoming en.book.asks)).map Order.id).Perm
            (r.incoming.id :: ((sideOrders r.levels).map Order.id ++
              (sideOrders en.book.asks).map Order.id)) := by
          refine List.Perm.trans (List.Perm.append_left _ (hperm_asks.map Order.id)) ?_
          exact List.perm_middle
        rw [hp2.nodup_iff, List.nodup_cons]
        refine ⟨?_, hnodup2⟩
        intro hmem
        rw [List.mem_append] at hmem
        rcases hmem with hmem | hmem <;>
          obtain ⟨o0, ho0, ho0e⟩ := List.mem_map.mp hmem
        · have := hidlt2 o0 (List.mem_append_left _ ho0)
          omega
        · have := hidlt2 o0 (List.mem_append_right _ ho0)
          omega
      · rw [allOrders]
        dsimp only
        rw [hb2.1, hb2.2.1, List.map_append]
        have h4 : ((sideOrders r.levels).map trip ++
            (sideOrders (add_to_side askCmp r.incoming en.book.asks)).map trip).Perm
            (trip r.incoming :: ((sideOrders r.levels).map trip ++
              (sideOrders en.book.asks).map trip)) := by
          refine List.Perm.trans (List.Perm.append_left _ (hperm_asks.map trip)) ?_
          exact List.perm_middle
        refine List.Perm.trans ?_ h4.symm
        exact List.Perm.cons _ hlk2
      · dsimp only
        rw [hb2.1, hb2.2.1]
        intro pb hpb pa hpa
        rcases add_to_side_keys askCmp r.incoming en.book.asks pa hpa with rfl | hpa2
        · exact huncross_new pb hpb
        · exact hwf.book.uncrossed pb (hkeys_sub pb hpb) pa hpa2
      · rw [allOrders]
        dsimp only
        rw [hb2.1, hb2.2.1]
        intro o ho
        rw [List.mem_append] at ho
        rcases ho with ho | ho
        · have h5 : o.id < en.next_order_id := hidlt2 o (List.mem_append_left _ ho)
          omega
        · have h6 := (hperm_asks.mem_iff).mp ho
          rw [List.mem_cons] at h6
          rcases h6 with rfl | h6
          · omega
          · have h5 : o.id < en.next_order_id :=
              hidlt2 o (List.mem_append_right _ h6)
            omega

/-- `process_order` preserves the engine invariant. -/
theorem engineWF_process (en : MatchingEngine) (hwf : EngineWF en)
    (s : Side) (t : OrderType) (p : Int) (q : Nat) :
    EngineWF (en.process_order s t p q).1 := by
  cases s with
  | BUY => exact engineWF_process_buy en hwf t p q
  | SELL => exact engineWF_process_sell en hwf t p q

/-- Erasing a trip by id commutes with projecting orders to trips. -/
theorem map_trip_eraseP (l : List Order) (id : Nat) :
    (l.map trip).eraseP (fun x => decide (x.1 = id)) =
      (l.eraseP (fun o => decide (o.id = id))).map trip := by
  rw [List.eraseP_map]
  rfl

/-- Erasing by a unique key respects permutation. -/
theorem eraseP_perm_of_perm {lk T : List (Nat × Side × Int)} (id : Nat)
    (h : lk.Perm T) (hnd : (T.map Prod.fst).Nodup) :
    (lk.eraseP (fun x => decide (x.1 = id))).Perm
      (T.eraseP (fun x => decide (x.1 = id))) := by
  rw [eraseP_eq_filter_of_nodup_keys Prod.fst id lk (((h.map Prod.fst).nodup_iff).mpr hnd),
    eraseP_eq_filter_of_nodup_keys Prod.fst id T hnd]
  exact h.filter _

/-- `cancel_order` preserves the engine invariant. -/
theorem engineWF_cancel (en : MatchingEngine) (hwf : EngineWF en) (id : Nat) :
    EngineWF (en.cancel_order id).1 := by
  unfold MatchingEngine.cancel_order OrderBook.cancel_order
  cases hfind : en.book.order_lookup.find? (fun e => decide (e.1 = id)) with
  | none => exact hwf
  | some entry =>
    dsimp only
    have hmem : entry ∈ en.book.order_lookup := List.mem_of_find?_eq_some hfind
    have hpred : entry.1 = id := by simpa using List.find?_some hfind
    obtain ⟨o, ho, hoe⟩ := List.mem_map.mp ((hwf.book.lookup_perm.mem_iff).mp hmem)
    have hid : o.id = id := by
      rw [← hpred, ← hoe]
      rfl
    have hnd := hwf.book.ids_nodup
    have hinj := List.inj_on_of_nodup_map hnd
    -- lookup after erasure, as a permutation over the remaining trips
    have hlkerase : (en.book.order_lookup.eraseP
        (fun x => decide (x.1 = id))).Perm
        (((allOrders en.book).map trip).eraseP (fun x => decide (x.1 = id))) := by
      refine eraseP_perm_of_perm id hwf.book.lookup_perm ?_
      rw [map_trip_fst]
      exact hnd
    have hkeysne_bids : (en.book.bids.map Prod.fst).Pairwise (fun a b => a ≠ b) :=
      hwf.book.bids_sorted.imp (fun h2 => by omega)
    have hkeysne_asks : (en.book.asks.map Prod.fst).Pairwise (fun a b => a ≠ b) :=
      hwf.book.asks_sorted.imp (fun h2 => by omega)
    rw [allOrders, List.mem_append] at ho
    cases hside : entry.2.1 with
    | BUY =>
      dsimp only
      -- the cancelled order rests on the bid side
      have hoside : o.side = Side.BUY := by
        have : (trip o).2.1 = entry.2.1 := by rw [hoe]
        simpa [trip, hside] using this
      have hobids : o ∈ sideOrders en.book.bids := by
        rcases ho with ho | ho
        · exact ho
        · obtain ⟨e2, he2, ho2⟩ := mem_sideOrders.mp ho
          have := ((hwf.book.asks_wf e2 he2).2 o ho2).2.1
          rw [hoside] at this
          cases this
      have hoprice : o.price = entry.2.2 := by
        have : (trip o).2.2 = entry.2.2 := by rw [hoe]
        simpa [trip] using this
      have hH : ∀ e2 ∈ en.book.bids, ∀ o2 ∈ e2.2.orders, o2.id = id → e2.1 = entry.2.2 := by
        intro e2 he2 o2 ho2 hid2
        have ho2mem : o2 ∈ allOrders en.book := by
          rw [allOrders, List.mem_append]
          exact Or.inl (mem_sideOrders.mpr ⟨e2, he2, ho2⟩)
        have homem : o ∈ allOrders en.book := by
          rw [allOrders, List.mem_append]
          exact Or.inl hobids
        have : o2 = o := hinj ho2mem homem (by rw [hid2, hid])
        subst this
        have := ((hwf.book.bids_wf e2 he2).2 o2 ho2).1
        rw [← this, hoprice]
      have horders : sideOrders (cancel_in_side id entry.2.2 en.book.bids) =
          (sideOrders en.book.bids).eraseP (fun o2 => decide (o2.id = id)) :=
        cancel_in_side_orders id entry.2.2 en.book.bids hkeysne_bids hH
      have hsub : List.Sublist (sideOrders (cancel_in_side id entry.2.2 en.book.bids))
          (sideOrders en.book.bids) := by
        rw [horders]
        exact List.eraseP_sublist _
      have hnoasks : ∀ x ∈ sideOrders en.book.asks,
          ¬ (fun o2 => decide (o2.id = id)) x = true := by
        intro x hx hx2
        simp only [decide_eq_true_eq] at hx2
        have hxmem : x ∈ allOrders en.book := by
          rw [allOrders, List.mem_append]; exact Or.inr hx
        have homem : o ∈ allOrders en.book := by
          rw [allOrders, List.mem_append]; exact Or.inl hobids
        have : x = o := hinj hxmem homem (by rw [hx2, hid])
        subst this
        obtain ⟨e2, he2, hx3⟩ := mem_sideOrders.mp hx
        have := ((hwf.book.asks_wf e2 he2).2 x hx3).2.1
        rw [hoside] at this
        cases this
      refine ⟨⟨?_, ?_, ?_, ?_, ?_, ?_, ?_⟩, ?_⟩
      · exact hwf.book.asks_sorted
      · exact List.Pairwise.sublist (cancel_in_side_keys id entry.2.2 en.book.bids)
          hwf.book.bids_sorted
      · exact cancel_in_side_wf id entry.2.2 en.book.bids Side.BUY hwf.book.bids_wf
      · exact hwf.book.asks_wf
      · rw [allOrders]
        dsimp only
        rw [List.map_append]
        refine ((hsub.map Order.id).append_right _).nodup ?_
        rw [allOrders, List.map_append] at hnd
        exact hnd
      · rw [allOrders]
        dsimp only
        refine hlkerase.trans ?_
        rw [allOrders, List.map_append,
          List.eraseP_append_left (a := trip o) (by simp [trip, hid])
            ((sideOrders en.book.asks).map trip) (List.mem_map_of_mem trip hobids),
          map_trip_eraseP, horders, List.map_append]
      · intro pb hpb pa hpa
        exact hwf.book.uncrossed pb
          ((cancel_in_side_keys id entry.2.2 en.book.bids).subset hpb) pa hpa
      · rw [allOrders]
        dsimp only
        intro o2 ho2
        rw [List.mem_append] at ho2
        rcases ho2 with ho2 | ho2
        · refine hwf.ids_lt o2 ?_
          rw [allOrders, List.mem_append]
          exact Or.inl (hsub.mem ho2)
        · exact hwf.ids_lt o2 (by rw [allOrders, List.mem_append]; exact Or.inr ho2)
    | SELL =>
      dsimp only
      have hoside : o.side = Side.SELL := by
        have : (trip o).2.1 = entry.2.1 := by rw [hoe]
        simpa [trip, hside] using this
      have hoasks : o ∈ sideOrders en.book.asks := by
        rcases ho with ho | ho
        · obtain ⟨e2, he2, ho2⟩ := mem_sideOrders.mp ho
          have := ((hwf.book.bids_wf e2 he2).2 o ho2).2.1
          rw [hoside] at this
          cases this
        · exact ho
      have hoprice : o.price = entry.2.2 := by
        have : (trip o).2.2 = entry.2.2 := by rw [hoe]
        simpa [trip] using this
      have hH : ∀ e2 ∈ en.book.asks, ∀ o2 ∈ e2.2.orders, o2.id = id → e2.1 = entry.2.2 := by
        intro e2 he2 o2 ho2 hid2
        have ho2mem : o2 ∈ allOrders en.book := by
          rw [allOrders, List.mem_append]
          exact Or.inr (mem_sideOrders.mpr ⟨e2, he2, ho2⟩)
        have homem : o ∈ allOrders en.book := by
          rw [allOrders, List.mem_append]
          exact Or.inr hoasks
        have : o2 = o := hinj ho2mem homem (by rw [hid2, hid])
        subst this
        have := ((hwf.book.asks_wf e2 he2).2 o2 ho2).1
        rw [← this, hoprice]
      have horders : sideOrders (cancel_in_side id entry.2.2 en.book.asks) =
          (sideOrders en.book.asks).eraseP (fun o2 => decide (o2.id = id)) :=
        cancel_in_side_orders id entry.2.2 en.book.asks hkeysne_asks hH
      have hsub : List.Sublist (sideOrders (cancel_in_side id entry.2.2 en.book.asks))
          (sideOrders en.book.asks) := by
        rw [horders]
        exact List.eraseP_sublist _
      have hnobids : ∀ x ∈ sideOrders en.book.bids,
          ¬ (fun o2 => decide (o2.id = id)) x = true := by
        intro x hx hx2
        simp only [decide_eq_true_eq] at hx2
        have hxmem : x ∈ allOrders en.book := by
          rw [allOrders, List.mem_append]; exact Or.inl hx
        have homem : o ∈ allOrders en.book := by
          rw [allOrders, List.mem_append]; exact Or.inr hoasks
        have : x = o := hinj hxmem homem (by rw [hx2, hid])
        subst this
        obtain ⟨e2, he2, hx3⟩ := mem_sideOrders.mp hx
        have := ((hwf.book.bids_wf e2 he2).2 x hx3).2.1
        rw [hoside] at this
        cases this
      refine ⟨⟨?_, ?_, ?_, ?_, ?_, ?_, ?_⟩, ?_⟩
      · exact List.Pairwise.sublist (cancel_in_side_keys id entry.2.2 en.book.asks)
          hwf.book.asks_sorted
      · exact hwf.book.bids_sorted
      · exact hwf.book.bids_wf
      · exact cancel_in_side_wf id entry.2.2 en.book.asks Side.SELL hwf.book.asks_wf
      · rw [allOrders]
        dsimp only
        rw [List.map_append]
        refine ((hsub.map Order.id).append_left _).nodup ?_
        rw [allOrders, List.map_append] at hnd
        exact hnd
      · rw [allOrders]
        dsimp only
        refine hlkerase.trans ?_
        rw [allOrders, List.map_append,
          List.eraseP_append_right _ (by
            intro x hx
            obtain ⟨x0, hx0, hx0e⟩ := List.mem_map.mp hx
            have := hnobids x0 hx0
            simp only [decide_eq_true_eq] at this ⊢
            rw [← hx0e]
            simpa [trip] using this),
          map_trip_eraseP, horders, List.map_append]
      · intro pb hpb pa hpa
        exact hwf.book.uncrossed pb hpb pa
          ((cancel_in_side_keys id entry.2.2 en.book.asks).subset hpa)
      · rw [allOrders]
        dsimp only
        intro o2 ho2
        rw [List.mem_append] at ho2
        rcases ho2 with ho2 | ho2
        · exact hwf.ids_lt o2 (by rw [allOrders, List.mem_append]; exact Or.inl ho2)
        · refine hwf.ids_lt o2 ?_
          rw [allOrders, List.mem_append]
          exact Or.inr (hsub.mem ho2)

/-- Every reachable engine state satisfies the invariant. -/
theorem reachable_wf {en : MatchingEngine} (h : Reachable en) : EngineWF en := by
  induction h with
  | mk0 => exact engineWF_mk0
  | process s t p q h2 ih => exact engineWF_process _ ih s t p q
  | cancel id h2 ih => exact engineWF_cancel _ ih id

/-! ### Event traces: assigned ids and timestamps -/

/-- Whether an operation is a `process_order` call. -/
def isProcess : Op → Bool
  | Op.process _ _ _ _ => true
  | Op.cancel _ => false

/-- The timestamps of the events one operation generates, in event order: the
created order's timestamp, then the executed trades' timestamps. -/
def opTimestamps (e : MatchingEngine) : Op → List Nat
  | Op.process s t p q =>
    e.next_timestamp :: ((e.process_order s t p q).2.map Trade.timestamp)
  | Op.cancel _ => []

/-- The order ids one operation assigns. -/
def opIds (e : MatchingEngine) : Op → List Nat
  | Op.process _ _ _ _ => [e.next_order_id]
  | Op.cancel _ => []

/-- All event timestamps of an operation sequence, in occurrence order. -/
def traceTimestamps : MatchingEngine → List Op → List Nat
  | _, [] => []
  | e, op :: ops => opTimestamps e op ++ traceTimestamps (applyOp e op) ops

/-- All assigned order ids of an operation sequence, in call order. -/
def traceIds : MatchingEngine → List Op → List Nat
  | _, [] => []
  | e, op :: ops => opIds e op ++ traceIds (applyOp e op) ops

/-- The number of `process_order` calls in a sequence. -/
def countProcess (ops : List Op) : Nat := ops.countP isProcess

/-- A filled incoming order matches nothing. -/
theorem match_side_of_filled {inc : Order} (isBuy : Bool) (levels : BookSide)
    (ts tc : Nat) (h : inc.is_filled = true) :
    match_side isBuy inc levels ts tc = ⟨inc, levels, [], ts, tc, []⟩ := by
  cases levels with
  | nil => simp
  | cons e rest =>
    obtain ⟨p0, l0⟩ := e
    exact match_side_cons_filled isBuy p0 l0 rest ts tc h

/-- One `process_order` call consumes the creation timestamp and one
timestamp per trade, leaving the counter past all of them. -/
theorem process_order_ts (en : MatchingEngine) (s : Side) (t : OrderType)
    (p : Int) (q : Nat) :
    (en.process_order s t p q).2.map Trade.timestamp =
      List.range' (en.next_timestamp + 1) (en.process_order s t p q).2.length ∧
    (en.process_order s t p q).1.next_timestamp =
      en.next_timestamp + 1 + (en.process_order s t p q).2.length := by
  cases s with
  | BUY =>
    obtain ⟨h1, h2⟩ := match_side_ts true
      ⟨en.next_order_id, en.next_timestamp, p, q, 0, Side.BUY, t⟩
      en.book.asks (en.next_timestamp + 1) en.trade_count
    exact ⟨h1, h2⟩
  | SELL =>
    obtain ⟨h1, h2⟩ := match_side_ts false
      ⟨en.next_order_id, en.next_timestamp, p, q, 0, Side.SELL, t⟩
      en.book.bids (en.next_timestamp + 1) en.trade_count
    exact ⟨h1, h2⟩

/-- `process_order` advances the id counter by exactly one. -/
theorem process_order_id (en : MatchingEngine) (s : Side) (t : OrderType)
    (p : Int) (q : Nat) :
    (en.process_order s t p q).1.next_order_id = en.next_order_id + 1 := by
  cases s <;> rfl

/-- `cancel_order` leaves every counter unchanged. -/
theorem cancel_order_counters (en : MatchingEngine) (id : Nat) :
    (en.cancel_order id).1.next_order_id = en.next_order_id ∧
    (en.cancel_order id).1.next_timestamp = en.next_timestamp ∧
    (en.cancel_order id).1.trade_count = en.trade_count ∧
    (en.cancel_order id).1.orders_processed = en.orders_processed := by
  unfold MatchingEngine.cancel_order
  rcases h : en.book.cancel_order id with ⟨b2, opt⟩
  cases opt <;> exact ⟨rfl, rfl, rfl, rfl⟩

/-- The event timestamps of a run form one contiguous block starting at the
engine's timestamp counter, which ends up just past the block. -/
theorem traceTimestamps_range (ops : List Op) : ∀ e : MatchingEngine, ∃ n,
    traceTimestamps e ops = List.range' e.next_timestamp n ∧
    (runFrom e ops).next_timestamp = e.next_timestamp + n := by
  induction ops with
  | nil => exact fun e => ⟨0, rfl, rfl⟩
  | cons op ops ih =>
    intro e
    cases op with
    | process s t p q =>
      obtain ⟨h1, h2⟩ := process_order_ts e s t p q
      obtain ⟨n2, k1, k2⟩ := ih (applyOp e (Op.process s t p q))
      have happ : (applyOp e (Op.process s t p q)).next_timestamp =
          e.next_timestamp + 1 + (e.process_order s t p q).2.length := h2
      refine ⟨1 + (e.process_order s t p q).2.length + n2, ?_, ?_⟩
      · show opTimestamps e (Op.process s t p q) ++
          traceTimestamps (applyOp e (Op.process s t p q)) ops = _
        rw [opTimestamps, h1, k1, happ]
        rw [show e.next_timestamp :: List.range' (e.next_timestamp + 1)
            (e.process_order s t p q).2.length =
          List.range' e.next_timestamp (1 + (e.process_order s t p q).2.length) from ?_]
        · rw [show e.next_timestamp + 1 + (e.process_order s t p q).2.length =
            e.next_timestamp + (1 + (e.process_order s t p q).2.length) from by omega]
          rw [List.range'_append_1]
          congr 1
          omega
        · rw [Nat.add_comm 1 (e.process_order s t p q).2.length, List.range'_succ]
      · show (runFrom (applyOp e (Op.process s t p q)) ops).next_timestamp = _
        rw [k2, happ]
        omega
    | cancel id =>
      obtain ⟨n2, k1, k2⟩ := ih (applyOp e (Op.cancel id))
      have happ : (applyOp e (Op.cancel id)).next_timestamp = e.next_timestamp :=
        (cancel_order_counters e id).2.1
      refine ⟨n2, ?_, ?_⟩
      · show opTimestamps e (Op.cancel id) ++
          traceTimestamps (applyOp e (Op.cancel id)) ops = _
        rw [opTimestamps, List.nil_append, k1, happ]
      · show (runFrom (applyOp e (Op.cancel id)) ops).next_timestamp = _
        rw [k2, happ]

/-- The assigned ids of a run are consecutive from the id counter, one per
`process_order` call. -/
theorem traceIds_range (ops : List Op) : ∀ e : MatchingEngine,
    traceIds e ops = List.range' e.next_order_id (countProcess ops) ∧
    (runFrom e ops).next_order_id = e.next_order_id + countProcess ops := by
  induction ops with
  | nil => exact fun e => ⟨rfl, rfl⟩
  | cons op ops ih =>
    intro e
    cases op with
    | process s t p q =>
      obtain ⟨k1, k2⟩ := ih (applyOp e (Op.process s t p q))
      have happ : (applyOp e (Op.process s t p q)).next_order_id =
          e.next_order_id + 1 := process_order_id e s t p q
      have hcount : countProcess (Op.process s t p q :: ops) =
          1 + countProcess ops := by
        simp [countProcess, List.countP_cons, isProcess]
        omega
      constructor
      · show opIds e (Op.process s t p q) ++
          traceIds (applyOp e (Op.process s t p q)) ops = _
        rw [opIds, k1, happ, hcount]
        rw [show [e.next_order_id] = List.range' e.next_order_id 1 from rfl,
          List.range'_append_1]
        congr 1
        omega
      · show (runFrom (applyOp e (Op.process s t p q)) ops).next_order_id = _
        rw [k2, happ, hcount]
        omega
    | cancel id =>
      obtain ⟨k1, k2⟩ := ih (applyOp e (Op.cancel id))
      have happ : (applyOp e (Op.cancel id)).next_order_id = e.next_order_id :=
        (cancel_order_counters e id).1
      have hcount : countProcess (Op.cancel id :: ops) = countProcess ops := by
        simp [countProcess, List.countP_cons, isProcess]
      constructor
      · show opIds e (Op.cancel id) ++ traceIds (applyOp e (Op.cancel id)) ops = _
        rw [opIds, List.nil_append, k1, happ, hcount]
      · show (runFrom (applyOp e (Op.cancel id)) ops).next_order_id = _
        rw [k2, happ, hcount]

/-! ### Claim-level helper definitions and lemmas -/

/-- The side collection of the book for a given side. -/
def sideOf (b : OrderBook) (s : Side) : BookSide :=
  match s with
  | Side.BUY => b.bids
  | Side.SELL => b.asks

/-- The opposite side. -/
def opposite : Side → Side
  | Side.BUY => Side.SELL
  | Side.SELL => Side.BUY

/-- The maker (resting-side) id of a trade whose taker has the given side. -/
def makerOf (s : Side) (t : Trade) : Nat :=
  match s with
  | Side.BUY => t.seller_order_id
  | Side.SELL => t.buyer_order_id

theorem reachable_runFrom (ops : List Op) :
    ∀ {e : MatchingEngine}, Reachable e → Reachable (runFrom e ops) := by
  induction ops with
  | nil => exact fun h => h
  | cons op ops ih =>
    intro e h
    cases op with
    | process s t p q => exact ih (Reachable.process s t p q h)
    | cancel id => exact ih (Reachable.cancel id h)

theorem reachable_runOps (ops : List Op) : Reachable (runOps ops) :=
  reachable_runFrom ops Reachable.mk0

/-- `has_order` answers membership of the id among the resting orders. -/
theorem has_order_true_iff {b : OrderBook}
    (hperm : b.order_lookup.Perm ((allOrders b).map trip)) (i : Nat) :
    b.has_order i = true ↔ ∃ o ∈ allOrders b, o.id = i := by
  unfold OrderBook.has_order
  rw [List.any_eq_true]
  constructor
  · rintro ⟨x, hx, hx2⟩
    obtain ⟨o, ho, hoe⟩ := List.mem_map.mp ((hperm.mem_iff).mp hx)
    refine ⟨o, ho, ?_⟩
    simp only [decide_eq_true_eq] at hx2
    rw [← hx2, ← hoe]
    rfl
  · rintro ⟨o, ho, rfl⟩
    exact ⟨trip o, (hperm.mem_iff).mpr (List.mem_map_of_mem trip ho), by simp [trip]⟩

/-- After erasing a key from a list with distinct keys, the key is gone. -/
theorem eraseP_key_all_ne {α : Type} (key : α → Nat) (i : Nat) :
    ∀ (l : List α), (l.map key).Nodup →
      ∀ x ∈ l.eraseP (fun e => decide (key e = i)), key x ≠ i
  | [], _ => by simp
  | a :: l, h => by
    rw [List.map_cons, List.nodup_cons] at h
    by_cases ha : key a = i
    · rw [List.eraseP_cons_of_pos (by simp [ha])]
      intro x hx hxk
      refine h.1 ?_
      rw [ha, ← hxk]
      exact List.mem_map_of_mem key hx
    · rw [List.eraseP_cons_of_neg (by simp [ha])]
      intro x hx hxk
      rw [List.mem_cons] at hx
      rcases hx with rfl | hx
      · exact ha hxk
      · exact eraseP_key_all_ne key i l h.2 x hx hxk

/-- A successful cancel erases exactly the id's entry from the lookup. -/
theorem cancel_order_lookup (en : MatchingEngine) (i : Nat)
    (h : (en.cancel_order i).2 = true) :
    (en.cancel_order i).1.book.order_lookup =
      en.book.order_lookup.eraseP (fun x => decide (x.1 = i)) := by
  unfold MatchingEngine.cancel_order OrderBook.cancel_order at *
  cases hfind : en.book.order_lookup.find? (fun e => decide (e.1 = i)) with
  | none =>
    rw [hfind] at h
    cases h
  | some entry =>
    rw [hfind] at *
    dsimp only
    cases entry.2.1 <;> rfl

/-- Flattened length equals the sum of per-level order counts. -/
theorem sideOrders_length (s : BookSide) :
    (sideOrders s).length = (s.map (fun e2 => e2.2.order_count)).sum := by
  induction s with
  | nil => rfl
  | cons e rest ih =>
    simp [PriceLevel.order_count, ih]

/-- Flattened count equals the sum of per-level counts. -/
theorem sideOrders_countP (pred : Order → Bool) (s : BookSide) :
    (sideOrders s).countP pred =
      (s.map (fun e2 => e2.2.orders.countP pred)).sum := by
  induction s with
  | nil => rfl
  | cons e rest ih =>
    simp [List.countP_append, ih]

/-- With globally unique ids, at most one resting order bears a given id. -/
theorem countP_id_le_one (i : Nat) :
    ∀ (l : List Order), (l.map Order.id).Nodup →
      l.countP (fun o => decide (o.id = i)) ≤ 1
  | [], _ => by simp
  | a :: l, h => by
    rw [List.map_cons, List.nodup_cons] at h
    by_cases ha : a.id = i
    · rw [List.countP_cons_of_pos _ _ (by simp [ha])]
      have : l.countP (fun o => decide (o.id = i)) = 0 := by
        rw [List.countP_eq_zero]
        intro o ho
        simp only [decide_eq_true_eq]
        intro hoid
        refine h.1 ?_
        rw [ha, ← hoid]
        exact List.mem_map_of_mem Order.id ho
      omega
    · rw [List.countP_cons_of_neg _ _ (by simp [ha])]
      exact countP_id_le_one i l h.2

/-- A MARKET order leaves only previously resting orders in the book: all
surviving ids are strictly below the id it consumed. -/
theorem process_market_ids_lt (en : MatchingEngine) (hwf : EngineWF en)
    (s : Side) (p : Int) (q : Nat) :
    ∀ o ∈ allOrders (en.process_order s OrderType.MARKET p q).1.book,
      o.id < en.next_order_id := by
  cases s with
  | BUY =>
    rw [process_order_buy]
    dsimp only
    rw [ite_self]
    set r := match_side true
      ⟨en.next_order_id, en.next_timestamp, p, q, 0, Side.BUY, OrderType.MARKET⟩
      en.book.asks (en.next_timestamp + 1) en.trade_count with hrdef
    obtain ⟨gone, htr, hrm⟩ := match_side_trips true
      ⟨en.next_order_id, en.next_timestamp, p, q, 0, Side.BUY, OrderType.MARKET⟩
      en.book.asks (en.next_timestamp + 1) en.trade_count
    rw [← hrdef] at htr hrm
    have hids_suffix : (sideOrders en.book.asks).map Order.id =
        gone.map Order.id ++ (sideOrders r.levels).map Order.id := by
      have h2 := congrArg (List.map Prod.fst) htr
      simpa only [map_trip_fst, List.map_append] using h2
    have hasub : List.Sublist ((sideOrders r.levels).map Order.id)
        ((sideOrders en.book.asks).map Order.id) := by
      rw [hids_suffix]
      exact List.sublist_append_right _ _
    have hb2 := foldl_remove_from_lookup r.removed { en.book with asks := r.levels }
    intro o ho
    rw [allOrders, hb2.1, hb2.2.1, List.mem_append] at ho
    rcases ho with ho | ho
    · exact hwf.ids_lt o (by rw [allOrders, List.mem_append]; exact Or.inl ho)
    · have h2 : o.id ∈ (sideOrders en.book.asks).map Order.id :=
        hasub.subset (List.mem_map_of_mem Order.id ho)
      obtain ⟨o0, ho0, hid⟩ := List.mem_map.mp h2
      rw [← hid]
      exact hwf.ids_lt o0 (by rw [allOrders, List.mem_append]; exact Or.inr ho0)
  | SELL =>
    rw [process_order_sell]
    dsimp only
    rw [ite_self]
    set r := match_side false
      ⟨en.next_order_id, en.next_timestamp, p, q, 0, Side.SELL, OrderType.MARKET⟩
      en.book.bids (en.next_timestamp + 1) en.trade_count with hrdef
    obtain ⟨gone, htr, hrm⟩ := match_side_trips false
      ⟨en.next_order_id, en.next_timestamp, p, q, 0, Side.SELL, OrderType.MARKET⟩
      en.book.bids (en.next_timestamp + 1) en.trade_count
    rw [← hrdef] at htr hrm
    have hids_suffix : (sideOrders en.book.bids).map Order.id =
        gone.map Order.id ++ (sideOrders r.levels).map Order.id := by
      have h2 := congrArg (List.map Prod.fst) htr
      simpa only [map_trip_fst, List.map_append] using h2
    have hbsub : List.Sublist ((sideOrders r.levels).map Order.id)
        ((sideOrders en.book.bids).map Order.id) := by
      rw [hids_suffix]
      exact List.sublist_append_right _ _
    have hb2 := foldl_remove_from_lookup r.removed { en.book with bids := r.levels }
    intro o ho
    rw [allOrders, hb2.1, hb2.2.1, List.mem_append] at ho
    rcases ho with ho | ho
    · have h2 : o.id ∈ (sideOrders en.book.bids).map Order.id :=
        hbsub.subset (List.mem_map_of_mem Order.id ho)
      obtain ⟨o0, ho0, hid⟩ := List.mem_map.mp h2
      rw [← hid]
      exact hwf.ids_lt o0 (by rw [allOrders, List.mem_append]; exact Or.inl ho0)
    · exact hwf.ids_lt o (by rw [allOrders, List.mem_append]; exact Or.inr ho)

/-! ### The claims -/

/-- **C1** — the claim states that after every public operation each level's
cached `total_quantity` equals the sum of the remaining quantities of its
orders.  The code violates this: `PriceLevel::pop_front` subtracts the front
order's remaining *after* `execute_trade` has driven it to zero, so when a
fully filled order is popped from a level that still holds other orders the
cache is never decremented.  After `SELL LIMIT 10000 100; SELL LIMIT 10000 50;
BUY LIMIT 10000 100`, the ask level at 10000 holds one order with remaining 50
but its cached total (and `get_volume_at_price`) reads 150. -/
theorem total_quantity_cache_diverges :
    ∃ l : PriceLevel,
      (runOps [Op.process Side.SELL OrderType.LIMIT 10000 100,
               Op.process Side.SELL OrderType.LIMIT 10000 50,
               Op.process Side.BUY OrderType.LIMIT 10000 100]).book.asks = [(10000, l)] ∧
      l.total_qty = 150 ∧
      (l.orders.map Order.remaining).sum = 50 ∧
      l.total_qty ≠ (l.orders.map Order.remaining).sum ∧
      (runOps [Op.process Side.SELL OrderType.LIMIT 10000 100,
               Op.process Side.SELL OrderType.LIMIT 10000 50,
               Op.process Side.BUY OrderType.LIMIT 10000 100]).book.get_volume_at_price
        Side.SELL 10000 = 150 := by
  refine ⟨⟨[⟨2, 2, 10000, 50, 0, Side.SELL, OrderType.LIMIT⟩], 150⟩,
    ?_, rfl, rfl, ?_, ?_⟩
  · rfl
  · decide
  · rfl

/-- **C5** — from a fresh engine, the assigned order ids are `1, 2, 3, …` in
`process_order` call order, and the timestamps of all events (order creations
and executed trades, in the single order in which they occur) are strictly
increasing. -/
theorem ids_sequential_timestamps_increasing (ops : List Op) :
    traceIds MatchingEngine.mk0 ops = List.range' 1 (countProcess ops) ∧
    (traceTimestamps MatchingEngine.mk0 ops).Pairwise (fun a b : Nat => a < b) := by
  constructor
  · exact (traceIds_range ops MatchingEngine.mk0).1
  · obtain ⟨n, h1, _⟩ := traceTimestamps_range ops MatchingEngine.mk0
    rw [h1]
    exact List.pairwise_lt_range' _ _

/-- **C8** — after every public operation the book is uncrossed: whenever a
best bid and a best ask both exist, `best_bid < best_ask`. -/
theorem best_bid_lt_best_ask (en : MatchingEngine) (h : Reachable en) :
    ∀ pb pa, en.book.best_bid = some pb → en.book.best_ask = some pa →
      pb < pa := by
  intro pb pa hb ha
  have hwf := reachable_wf h
  unfold OrderBook.best_bid at hb
  unfold OrderBook.best_ask at ha
  cases hbids : en.book.bids with
  | nil => rw [hbids] at hb; simp at hb
  | cons e rest =>
    cases hasks : en.book.asks with
    | nil => rw [hasks] at ha; simp at ha
    | cons e2 rest2 =>
      rw [hbids] at hb
      rw [hasks] at ha
      simp only [List.head?_cons, Option.map_some'] at hb ha
      rw [Option.some_inj] at hb ha
      refine hwf.book.uncrossed pb ?_ pa ?_
      · rw [hbids, ← hb]
        exact List.mem_map_of_mem Prod.fst (List.mem_cons_self _ _)
      · rw [hasks, ← ha]
        exact List.mem_map_of_mem Prod.fst (List.mem_cons_self _ _)

theorem best_bid_lt_best_ask_witness : (9000 : Int) < 10100 :=
  best_bid_lt_best_ask
    (runOps [Op.process Side.BUY OrderType.LIMIT 9000 10,
             Op.process Side.SELL OrderType.LIMIT 10100 10])
    (reachable_runOps _) 9000 10100 rfl rfl

/-- **C10** — `process_order` with quantity 0 (unchecked by the engine)
returns no trades and leaves the book untouched, because `is_filled` is
`filled_qty >= quantity` and `0 >= 0` holds; yet it still consumes one order
id, one timestamp, and increments `orders_processed`. -/
theorem zero_quantity_order_is_noop (en : MatchingEngine) (s : Side)
    (t : OrderType) (p : Int) :
    en.process_order s t p 0 =
      ({ book := en.book, next_order_id := en.next_order_id + 1,
         next_timestamp := en.next_timestamp + 1, trade_count := en.trade_count,
         orders_processed := en.orders_processed + 1 }, ([] : List Trade)) := by
  have h : (⟨en.next_order_id, en.next_timestamp, p, 0, 0, s, t⟩ : Order).is_filled = true := rfl
  cases s with
  | BUY =>
    rw [process_order_buy]
    dsimp only
    rw [match_side_of_filled true en.book.asks (en.next_timestamp + 1)
      en.trade_count h]
    dsimp only
    rw [if_pos h]
    rfl
  | SELL =>
    rw [process_order_sell]
    dsimp only
    rw [match_side_of_filled false en.book.bids (en.next_timestamp + 1)
      en.trade_count h]
    dsimp only
    rw [if_pos h]
    rfl

/-- **C2** — every trade produced by `process_order` carries the resting
(maker) order's price: the maker id belongs to an order that was resting in
the pre-call book, on the opposite side, at exactly the trade's price. -/
theorem trade_price_is_maker_price (en : MatchingEngine) (h : Reachable en)
    (s : Side) (t : OrderType) (p : Int) (q : Nat) :
    ∀ tr ∈ (en.process_order s t p q).2,
      ∃ o ∈ allOrders en.book, o.id = makerOf s tr ∧ o.side = opposite s ∧
        o.price = tr.price := by
  have hwf := reachable_wf h
  cases s with
  | BUY =>
    intro tr htr
    obtain ⟨e2, he2, hp, hm, _⟩ := match_side_trades true
      ⟨en.next_order_id, en.next_timestamp, p, q, 0, Side.BUY, t⟩
      en.book.asks (en.next_timestamp + 1) en.trade_count tr htr
    obtain ⟨o, ho, hoid⟩ := List.mem_map.mp hm
    refine ⟨o, ?_, hoid, ?_, ?_⟩
    · rw [allOrders, List.mem_append]
      exact Or.inr (mem_sideOrders.mpr ⟨e2, he2, ho⟩)
    · exact ((hwf.book.asks_wf e2 he2).2 o ho).2.1
    · rw [((hwf.book.asks_wf e2 he2).2 o ho).1, ← hp]
  | SELL =>
    intro tr htr
    obtain ⟨e2, he2, hp, hm, _⟩ := match_side_trades false
      ⟨en.next_order_id, en.next_timestamp, p, q, 0, Side.SELL, t⟩
      en.book.bids (en.next_timestamp + 1) en.trade_count tr htr
    obtain ⟨o, ho, hoid⟩ := List.mem_map.mp hm
    refine ⟨o, ?_, hoid, ?_, ?_⟩
    · rw [allOrders, List.mem_append]
      exact Or.inl (mem_sideOrders.mpr ⟨e2, he2, ho⟩)
    · exact ((hwf.book.bids_wf e2 he2).2 o ho).2.1
    · rw [((hwf.book.bids_wf e2 he2).2 o ho).1, ← hp]

theorem trade_price_is_maker_price_witness :
    ∃ o ∈ allOrders (runOps [Op.process Side.SELL OrderType.LIMIT 10000 100]).book,
      o.id = makerOf Side.BUY ⟨2, 1, 10000, 100, 3⟩ ∧
      o.side = opposite Side.BUY ∧
      o.price = (⟨2, 1, 10000, 100, 3⟩ : Trade).price :=
  trade_price_is_maker_price
    (runOps [Op.process Side.SELL OrderType.LIMIT 10000 100])
    (reachable_runOps _) Side.BUY OrderType.LIMIT 10100 100
    ⟨2, 1, 10000, 100, 3⟩ (by decide)

/-- **C7** — a MARKET order never rests: after the call its id is neither in
the lookup nor in any level, and — since MARKET orders face no price gate —
either the full quantity traded or the opposite side was exhausted; the
residual is silently dropped. -/
theorem market_order_never_rests (en : MatchingEngine) (h : Reachable en)
    (s : Side) (p : Int) (q : Nat) :
    (en.process_order s OrderType.MARKET p q).1.book.has_order en.next_order_id = false ∧
    (∀ o ∈ allOrders (en.process_order s OrderType.MARKET p q).1.book,
      o.id ≠ en.next_order_id) ∧
    ((((en.process_order s OrderType.MARKET p q).2.map Trade.quantity).sum = q) ∨
      sideOf (en.process_order s OrderType.MARKET p q).1.book (opposite s) = []) := by
  have hwf := reachable_wf h
  have hids := process_market_ids_lt en hwf s p q
  have hwf2 : EngineWF (en.process_order s OrderType.MARKET p q).1 :=
    engineWF_process en hwf s OrderType.MARKET p q
  refine ⟨?_, ?_, ?_⟩
  · rw [Bool.eq_false_iff, Ne, has_order_true_iff hwf2.book.lookup_perm]
    rintro ⟨o, ho, hoid⟩
    exact absurd hoid (Nat.ne_of_lt (hids o ho))
  · intro o ho
    exact Nat.ne_of_lt (hids o ho)
  · cases s with
    | BUY =>
      obtain ⟨mi1, mi2, mi3, mi4, mi5, mi6, mi7, mi8⟩ := match_side_incoming true
        ⟨en.next_order_id, en.next_timestamp, p, q, 0, Side.BUY, OrderType.MARKET⟩
        en.book.asks (en.next_timestamp + 1) en.trade_count
      rcases match_side_stop true
        ⟨en.next_order_id, en.next_timestamp, p, q, 0, Side.BUY, OrderType.MARKET⟩
        en.book.asks (en.next_timestamp + 1) en.trade_count with hst | hst | hst
      · left
        show (((match_side true
          ⟨en.next_order_id, en.next_timestamp, p, q, 0, Side.BUY, OrderType.MARKET⟩
          en.book.asks (en.next_timestamp + 1) en.trade_count).trades.map
            Trade.quantity).sum = q)
        rw [mi8]
        have hfl := Order.is_filled_iff.mp hst
        rw [mi5] at hfl
        dsimp only at hfl mi7 ⊢
        omega
      · right
        show (en.process_order Side.BUY OrderType.MARKET p q).1.book.asks = []
        have hb2 := foldl_remove_from_lookup
          (match_side true
            ⟨en.next_order_id, en.next_timestamp, p, q, 0, Side.BUY, OrderType.MARKET⟩
            en.book.asks (en.next_timestamp + 1) en.trade_count).removed
          { en.book with asks := (match_side true
            ⟨en.next_order_id, en.next_timestamp, p, q, 0, Side.BUY, OrderType.MARKET⟩
            en.book.asks (en.next_timestamp + 1) en.trade_count).levels }
        have heq : (en.process_order Side.BUY OrderType.MARKET p q).1.book.asks =
            (match_side true
              ⟨en.next_order_id, en.next_timestamp, p, q, 0, Side.BUY, OrderType.MARKET⟩
              en.book.asks (en.next_timestamp + 1) en.trade_count).levels := by
          rw [process_order_buy]
          dsimp only
          rw [ite_self]
          exact hb2.2.1
        rw [heq, hst]
      · obtain ⟨p0, l0, rest0, hlev, hgate⟩ := hst
        rw [gateStop, mi4] at hgate
        simp at hgate
    | SELL =>
      obtain ⟨mi1, mi2, mi3, mi4, mi5, mi6, mi7, mi8⟩ := match_side_incoming false
        ⟨en.next_order_id, en.next_timestamp, p, q, 0, Side.SELL, OrderType.MARKET⟩
        en.book.bids (en.next_timestamp + 1) en.trade_count
      rcases match_side_stop false
        ⟨en.next_order_id, en.next_timestamp, p, q, 0, Side.SELL, OrderType.MARKET⟩
        en.book.bids (en.next_timestamp + 1) en.trade_count with hst | hst | hst
      · left
        show (((match_side false
          ⟨en.next_order_id, en.next_timestamp, p, q, 0, Side.SELL, OrderType.MARKET⟩
          en.book.bids (en.next_timestamp + 1) en.trade_count).trades.map
            Trade.quantity).sum = q)
        rw [mi8]
        have hfl := Order.is_filled_iff.mp hst
        rw [mi5] at hfl
        dsimp only at hfl mi7 ⊢
        omega
      · right
        show (en.process_order Side.SELL OrderType.MARKET p q).1.book.bids = []
        have hb2 := foldl_remove_from_lookup
          (match_side false
            ⟨en.next_order_id, en.next_timestamp, p, q, 0, Side.SELL, OrderType.MARKET⟩
            en.book.bids (en.next_timestamp + 1) en.trade_count).removed
          { en.book with bids := (match_side false
            ⟨en.next_order_id, en.next_timestamp, p, q, 0, Side.SELL, OrderType.MARKET⟩
            en.book.bids (en.next_timestamp + 1) en.trade_count).levels }
        have heq : (en.process_order Side.SELL OrderType.MARKET p q).1.book.bids =
            (match_side false
              ⟨en.next_order_id, en.next_timestamp, p, q, 0, Side.SELL, OrderType.MARKET⟩
              en.book.bids (en.next_timestamp + 1) en.trade_count).levels := by
          rw [process_order_sell]
          dsimp only
          rw [ite_self]
          exact hb2.1
        rw [heq, hst]
      · obtain ⟨p0, l0, rest0, hlev, hgate⟩ := hst
        rw [gateStop, mi4] at hgate
        simp at hgate

theorem market_order_never_rests_witness :
    ((runOps [Op.process Side.SELL OrderType.LIMIT 10000 30]).process_order
        Side.BUY OrderType.MARKET 0 100).1.book.has_order
      (runOps [Op.process Side.SELL OrderType.LIMIT 10000 30]).next_order_id = false ∧
    (∀ o ∈ allOrders ((runOps [Op.process Side.SELL OrderType.LIMIT 10000 30]).process_order
        Side.BUY OrderType.MARKET 0 100).1.book,
      o.id ≠ (runOps [Op.process Side.SELL OrderType.LIMIT 10000 30]).next_order_id) ∧
    (((((runOps [Op.process Side.SELL OrderType.LIMIT 10000 30]).process_order
        Side.BUY OrderType.MARKET 0 100).2.map Trade.quantity).sum = 100) ∨
      sideOf ((runOps [Op.process Side.SELL OrderType.LIMIT 10000 30]).process_order
        Side.BUY OrderType.MARKET 0 100).1.book (opposite Side.BUY) = []) :=
  market_order_never_rests (runOps [Op.process Side.SELL OrderType.LIMIT 10000 30])
    (reachable_runOps _) Side.BUY 0 100

/-- **C9** — the lookup's entries correspond exactly to the resting orders:
an id maps to side `sd` and price `pr` iff a level keyed `pr` on side `sd`
holds an order with that id and price; moreover `total_order_count` equals the
sum of the levels' order counts, and no id rests in more than one place. -/
theorem lookup_matches_resting (en : MatchingEngine) (h : Reachable en) :
    (∀ i sd pr, ((i, sd, pr) ∈ en.book.order_lookup ↔
      ∃ e2 ∈ sideOf en.book sd, e2.1 = pr ∧ ∃ o ∈ e2.2.orders, o.id = i ∧
        o.price = pr)) ∧
    en.book.total_order_count =
      ((en.book.bids ++ en.book.asks).map (fun e2 => e2.2.order_count)).sum ∧
    (∀ i, ((en.book.bids ++ en.book.asks).map
      (fun e2 => e2.2.orders.countP (fun o => decide (o.id = i)))).sum ≤ 1) := by
  have hwf := reachable_wf h
  refine ⟨?_, ?_, ?_⟩
  · intro i sd pr
    constructor
    · intro hmem
      obtain ⟨o, ho, hoe⟩ := List.mem_map.mp ((hwf.book.lookup_perm.mem_iff).mp hmem)
      have h1 : o.id = i := congrArg Prod.fst hoe
      have h2 : o.side = sd := congrArg (fun x => x.2.1) hoe
      have h3 : o.price = pr := congrArg (fun x => x.2.2) hoe
      rw [allOrders, List.mem_append] at ho
      cases sd with
      | BUY =>
        have hob : o ∈ sideOrders en.book.bids := by
          rcases ho with ho | ho
          · exact ho
          · obtain ⟨e2, he2, ho2⟩ := mem_sideOrders.mp ho
            have := ((hwf.book.asks_wf e2 he2).2 o ho2).2.1
            rw [h2] at this
            cases this
        obtain ⟨e2, he2, ho2⟩ := mem_sideOrders.mp hob
        exact ⟨e2, he2, by rw [← ((hwf.book.bids_wf e2 he2).2 o ho2).1, h3],
          o, ho2, h1, h3⟩
      | SELL =>
        have hoa : o ∈ sideOrders en.book.asks := by
          rcases ho with ho | ho
          · obtain ⟨e2, he2, ho2⟩ := mem_sideOrders.mp ho
            have := ((hwf.book.bids_wf e2 he2).2 o ho2).2.1
            rw [h2] at this
            cases this
          · exact ho
        obtain ⟨e2, he2, ho2⟩ := mem_sideOrders.mp hoa
        exact ⟨e2, he2, by rw [← ((hwf.book.asks_wf e2 he2).2 o ho2).1, h3],
          o, ho2, h1, h3⟩
    · rintro ⟨e2, he2, hkey, o, ho2, hid, hpr⟩
      refine (hwf.book.lookup_perm.mem_iff).mpr ?_
      cases sd with
      | BUY =>
        have hside : o.side = Side.BUY := ((hwf.book.bids_wf e2 he2).2 o ho2).2.1
        have : trip o = (i, Side.BUY, pr) := by
          rw [trip, hid, hside, hpr]
        rw [← this]
        refine List.mem_map_of_mem trip ?_
        rw [allOrders, List.mem_append]
        exact Or.inl (mem_sideOrders.mpr ⟨e2, he2, ho2⟩)
      | SELL =>
        have hside : o.side = Side.SELL := ((hwf.book.asks_wf e2 he2).2 o ho2).2.1
        have : trip o = (i, Side.SELL, pr) := by
          rw [trip, hid, hside, hpr]
        rw [← this]
        refine List.mem_map_of_mem trip ?_
        rw [allOrders, List.mem_append]
        exact Or.inr (mem_sideOrders.mpr ⟨e2, he2, ho2⟩)
  · have hlen := hwf.book.lookup_perm.length_eq
    rw [OrderBook.total_order_count, hlen, List.length_map, allOrders,
      List.length_append, sideOrders_length, sideOrders_length,
      List.map_append, List.sum_append]
  · intro i
    have hnodup : ((sideOrders (en.book.bids ++ en.book.asks)).map Order.id).Nodup := by
      rw [sideOrders_append]
      exact hwf.book.ids_nodup
    have hle := countP_id_le_one i (sideOrders (en.book.bids ++ en.book.asks)) hnodup
    rwa [sideOrders_countP] at hle

theorem lookup_matches_resting_witness :
    ((1, Side.BUY, (10000 : Int)) ∈
      (runOps [Op.process Side.BUY OrderType.LIMIT 10000 5]).book.order_lookup ↔
      ∃ e2 ∈ sideOf (runOps [Op.process Side.BUY OrderType.LIMIT 10000 5]).book Side.BUY,
        e2.1 = 10000 ∧ ∃ o ∈ e2.2.orders, o.id = 1 ∧ o.price = 10000) :=
  (lookup_matches_resting (runOps [Op.process Side.BUY OrderType.LIMIT 10000 5])
    (reachable_runOps _)).1 1 Side.BUY 10000

/-- `cancel_order` reports success exactly when the lookup knows the id. -/
theorem cancel_order_ret (en : MatchingEngine) (i : Nat) :
    (en.cancel_order i).2 = true ↔ ∃ x ∈ en.book.order_lookup, x.1 = i := by
  unfold MatchingEngine.cancel_order OrderBook.cancel_order
  cases hfind : en.book.order_lookup.find? (fun e => decide (e.1 = i)) with
  | none =>
    dsimp only
    constructor
    · intro h2
      exact (Bool.false_ne_true h2).elim
    · rintro ⟨x, hx, hx2⟩
      rw [List.find?_eq_none] at hfind
      exact absurd (by simp [hx2]) (hfind x hx)
  | some entry =>
    have hx : entry ∈ en.book.order_lookup := List.mem_of_find?_eq_some hfind
    have hx2 : entry.1 = i := by simpa using List.find?_some hfind
    dsimp only
    cases h2 : entry.2.1
    · dsimp only
      exact ⟨fun _ => ⟨entry, hx, hx2⟩, fun _ => rfl⟩
    · dsimp only
      exact ⟨fun _ => ⟨entry, hx, hx2⟩, fun _ => rfl⟩

/-- **C6** — cancel semantics: the call succeeds iff the id is resting; a
failed cancel leaves the engine untouched; a successful cancel removes the
order from the lookup and from every level; and no empty level survives. -/
theorem cancel_order_semantics (en : MatchingEngine) (h : Reachable en)
    (i : Nat) :
    ((en.cancel_order i).2 = true ↔ ∃ o ∈ allOrders en.book, o.id = i) ∧
    ((en.cancel_order i).2 = false → (en.cancel_order i).1 = en) ∧
    ((en.cancel_order i).2 = true →
      (en.cancel_order i).1.book.has_order i = false ∧
      ∀ o ∈ allOrders (en.cancel_order i).1.book, o.id ≠ i) ∧
    (∀ e2 ∈ (en.cancel_order i).1.book.bids ++ (en.cancel_order i).1.book.asks,
      e2.2.orders ≠ []) := by
  have hwf := reachable_wf h
  have hwf2 : EngineWF (en.cancel_order i).1 := engineWF_cancel en hwf i
  have hkeys : (en.book.order_lookup.map Prod.fst).Nodup := by
    refine ((hwf.book.lookup_perm.map Prod.fst).nodup_iff).mpr ?_
    rw [map_trip_fst]
    exact hwf.book.ids_nodup
  refine ⟨?_, ?_, ?_, ?_⟩
  · rw [cancel_order_ret]
    constructor
    · rintro ⟨x, hx, hx2⟩
      obtain ⟨o, ho, hoe⟩ := List.mem_map.mp ((hwf.book.lookup_perm.mem_iff).mp hx)
      refine ⟨o, ho, ?_⟩
      rw [← hx2, ← hoe]
      rfl
    · rintro ⟨o, ho, rfl⟩
      exact ⟨trip o, (hwf.book.lookup_perm.mem_iff).mpr
        (List.mem_map_of_mem trip ho), rfl⟩
  · intro h2
    unfold MatchingEngine.cancel_order OrderBook.cancel_order at h2 ⊢
    cases hfind : en.book.order_lookup.find? (fun e => decide (e.1 = i)) with
    | none => rfl
    | some entry =>
      rw [hfind] at h2
      dsimp only at h2
      cases h3 : entry.2.1 <;> rw [h3] at h2 <;> cases h2
  · intro h2
    have hlk := cancel_order_lookup en i h2
    have hne := eraseP_key_all_ne Prod.fst i en.book.order_lookup hkeys
    have hgone : ∀ o ∈ allOrders (en.cancel_order i).1.book, o.id ≠ i := by
      intro o ho hoid
      have hmem2 : trip o ∈ (en.cancel_order i).1.book.order_lookup :=
        (hwf2.book.lookup_perm.mem_iff).mpr (List.mem_map_of_mem trip ho)
      rw [hlk] at hmem2
      exact hne (trip o) hmem2 hoid
    refine ⟨?_, hgone⟩
    rw [Bool.eq_false_iff, Ne, has_order_true_iff hwf2.book.lookup_perm]
    rintro ⟨o, ho, hoid⟩
    exact hgone o ho hoid
  · intro e2 he2
    rw [List.mem_append] at he2
    rcases he2 with he2 | he2
    · exact (hwf2.book.bids_wf e2 he2).1
    · exact (hwf2.book.asks_wf e2 he2).1

theorem cancel_order_semantics_witness :
    (((runOps [Op.process Side.BUY OrderType.LIMIT 10000 5]).cancel_order 1).2 = true ↔
      ∃ o ∈ allOrders (runOps [Op.process Side.BUY OrderType.LIMIT 10000 5]).book,
        o.id = 1) ∧
    (((runOps [Op.process Side.BUY OrderType.LIMIT 10000 5]).cancel_order 1).2 = false →
      ((runOps [Op.process Side.BUY OrderType.LIMIT 10000 5]).cancel_order 1).1 =
        runOps [Op.process Side.BUY OrderType.LIMIT 10000 5]) ∧
    (((runOps [Op.process Side.BUY OrderType.LIMIT 10000 5]).cancel_order 1).2 = true →
      ((runOps [Op.process Side.BUY OrderType.LIMIT 10000 5]).cancel_order
        1).1.book.has_order 1 = false ∧
      ∀ o ∈ allOrders ((runOps [Op.process Side.BUY OrderType.LIMIT 10000 5]).cancel_order
        1).1.book, o.id ≠ 1) ∧
    (∀ e2 ∈ ((runOps [Op.process Side.BUY OrderType.LIMIT 10000 5]).cancel_order
        1).1.book.bids ++
      ((runOps [Op.process Side.BUY OrderType.LIMIT 10000 5]).cancel_order 1).1.book.asks,
      e2.2.orders ≠ []) :=
  cancel_order_semantics (runOps [Op.process Side.BUY OrderType.LIMIT 10000 5])
    (reachable_runOps _) 1

/-- **C3** — conservation of quantity: the trades of one `process_order` call
sum to at most `Q`, and either they sum to exactly `Q`, or (LIMIT) the
incoming order rests at the incoming price on its own side carrying exactly
the residual `Q - F`, or (MARKET) nothing new rests and the residual is
dropped. -/
theorem process_conservation (en : MatchingEngine) (h : Reachable en)
    (s : Side) (t : OrderType) (p : Int) (Q : Nat) (hQ : 0 < Q) :
    (((en.process_order s t p Q).2.map Trade.quantity).sum ≤ Q) ∧
    ((((en.process_order s t p Q).2.map Trade.quantity).sum = Q) ∨
      (t = OrderType.LIMIT ∧
        ∃ e2 ∈ sideOf (en.process_order s t p Q).1.book s, e2.1 = p ∧
          ∃ o ∈ e2.2.orders, o.id = en.next_order_id ∧
            o.remaining =
              Q - ((en.process_order s t p Q).2.map Trade.quantity).sum) ∨
      (t = OrderType.MARKET ∧
        ∀ o ∈ allOrders (en.process_order s t p Q).1.book,
          o.id ≠ en.next_order_id)) := by
  have hwf := reachable_wf h
  cases s with
  | BUY =>
    obtain ⟨mi1, mi2, mi3, mi4, mi5, mi6, mi7, mi8⟩ := match_side_incoming true
      ⟨en.next_order_id, en.next_timestamp, p, Q, 0, Side.BUY, t⟩
      en.book.asks (en.next_timestamp + 1) en.trade_count
    constructor
    · show (((match_side true
        ⟨en.next_order_id, en.next_timestamp, p, Q, 0, Side.BUY, t⟩
        en.book.asks (en.next_timestamp + 1) en.trade_count).trades.map
          Trade.quantity).sum ≤ Q)
      rw [mi8]
      dsimp only at mi7 ⊢
      omega
    · by_cases hfill : (match_side true
        ⟨en.next_order_id, en.next_timestamp, p, Q, 0, Side.BUY, t⟩
        en.book.asks (en.next_timestamp + 1) en.trade_count).incoming.is_filled = true
      · left
        show (((match_side true
          ⟨en.next_order_id, en.next_timestamp, p, Q, 0, Side.BUY, t⟩
          en.book.asks (en.next_timestamp + 1) en.trade_count).trades.map
            Trade.quantity).sum = Q)
        have hfl := Order.is_filled_iff.mp hfill
        rw [mi5] at hfl
        rw [mi8]
        dsimp only at hfl mi7 ⊢
        omega
      · cases t with
        | LIMIT =>
          right; left
          refine ⟨rfl, ?_⟩
          have hside : (match_side true
              ⟨en.next_order_id, en.next_timestamp, p, Q, 0, Side.BUY, OrderType.LIMIT⟩
              en.book.asks (en.next_timestamp + 1) en.trade_count).incoming.side =
              Side.BUY := mi3
          have heq : sideOf (en.process_order Side.BUY OrderType.LIMIT p Q).1.book
              Side.BUY = add_to_side bidCmp
              (match_side true
                ⟨en.next_order_id, en.next_timestamp, p, Q, 0, Side.BUY, OrderType.LIMIT⟩
                en.book.asks (en.next_timestamp + 1) en.trade_count).incoming
              en.book.bids := by
            show (en.process_order Side.BUY OrderType.LIMIT p Q).1.book.bids = _
            rw [process_order_buy]
            dsimp only
            rw [if_neg hfill]
            rw [add_order_buy _ _ hside]
            exact congrArg (add_to_side bidCmp _) (foldl_remove_from_lookup _ _).1
          obtain ⟨e2, he2, hk, hm⟩ := add_to_side_mem bidCmp
            (match_side true
              ⟨en.next_order_id, en.next_timestamp, p, Q, 0, Side.BUY, OrderType.LIMIT⟩
              en.book.asks (en.next_timestamp + 1) en.trade_count).incoming
            en.book.bids
          rw [heq]
          refine ⟨e2, he2, by rw [hk, mi2], _, hm, mi1, ?_⟩
          show (match_side true
            ⟨en.next_order_id, en.next_timestamp, p, Q, 0, Side.BUY, OrderType.LIMIT⟩
            en.book.asks (en.next_timestamp + 1) en.trade_count).incoming.quantity -
            (match_side true
            ⟨en.next_order_id, en.next_timestamp, p, Q, 0, Side.BUY, OrderType.LIMIT⟩
            en.book.asks (en.next_timestamp + 1) en.trade_count).incoming.filled_qty =
            Q - (((match_side true
            ⟨en.next_order_id, en.next_timestamp, p, Q, 0, Side.BUY, OrderType.LIMIT⟩
            en.book.asks (en.next_timestamp + 1) en.trade_count).trades.map
              Trade.quantity).sum)
          rw [mi8, mi5]
          dsimp only
          omega
        | MARKET =>
          right; right
          exact ⟨rfl, fun o ho hoid => absurd hoid
            (Nat.ne_of_lt (process_market_ids_lt en hwf Side.BUY p Q o ho))⟩
  | SELL =>
    obtain ⟨mi1, mi2, mi3, mi4, mi5, mi6, mi7, mi8⟩ := match_side_incoming false
      ⟨en.next_order_id, en.next_timestamp, p, Q, 0, Side.SELL, t⟩
      en.book.bids (en.next_timestamp + 1) en.trade_count
    constructor
    · show (((match_side false
        ⟨en.next_order_id, en.next_timestamp, p, Q, 0, Side.SELL, t⟩
        en.book.bids (en.next_timestamp + 1) en.trade_count).trades.map
          Trade.quantity).sum ≤ Q)
      rw [mi8]
      dsimp only at mi7 ⊢
      omega
    · by_cases hfill : (match_side false
        ⟨en.next_order_id, en.next_timestamp, p, Q, 0, Side.SELL, t⟩
        en.book.bids (en.next_timestamp + 1) en.trade_count).incoming.is_filled = true
      · left
        show (((match_side false
          ⟨en.next_order_id, en.next_timestamp, p, Q, 0, Side.SELL, t⟩
          en.book.bids (en.next_timestamp + 1) en.trade_count).trades.map
            Trade.quantity).sum = Q)
        have hfl := Order.is_filled_iff.mp hfill
        rw [mi5] at hfl
        rw [mi8]
        dsimp only at hfl mi7 ⊢
        omega
      · cases t with
        | LIMIT =>
          right; left
          refine ⟨rfl, ?_⟩
          have hside : (match_side false
              ⟨en.next_order_id, en.next_timestamp, p, Q, 0, Side.SELL, OrderType.LIMIT⟩
              en.book.bids (en.next_timestamp + 1) en.trade_count).incoming.side =
              Side.SELL := mi3
          have heq : sideOf (en.process_order Side.SELL OrderType.LIMIT p Q).1.book
              Side.SELL = add_to_side askCmp
              (match_side false
                ⟨en.next_order_id, en.next_timestamp, p, Q, 0, Side.SELL, OrderType.LIMIT⟩
                en.book.bids (en.next_timestamp + 1) en.trade_count).incoming
              en.book.asks := by
            show (en.process_order Side.SELL OrderType.LIMIT p Q).1.book.asks = _
            rw [process_order_sell]
            dsimp only
            rw [if_neg hfill]
            rw [add_order_sell _ _ hside]
            exact congrArg (add_to_side askCmp _) (foldl_remove_from_lookup _ _).2.1
          obtain ⟨e2, he2, hk, hm⟩ := add_to_side_mem askCmp
            (match_side false
              ⟨en.next_order_id, en.next_timestamp, p, Q, 0, Side.SELL, OrderType.LIMIT⟩
              en.book.bids (en.next_timestamp + 1) en.trade_count).incoming
            en.book.asks
          rw [heq]
          refine ⟨e2, he2, by rw [hk, mi2], _, hm, mi1, ?_⟩
          show (match_side false
            ⟨en.next_order_id, en.next_timestamp, p, Q, 0, Side.SELL, OrderType.LIMIT⟩
            en.book.bids (en.next_timestamp + 1) en.trade_count).incoming.quantity -
            (match_side false
            ⟨en.next_order_id, en.next_timestamp, p, Q, 0, Side.SELL, OrderType.LIMIT⟩
            en.book.bids (en.next_timestamp + 1) en.trade_count).incoming.filled_qty =
            Q - (((match_side false
            ⟨en.next_order_id, en.next_timestamp, p, Q, 0, Side.SELL, OrderType.LIMIT⟩
            en.book.bids (en.next_timestamp + 1) en.trade_count).trades.map
              Trade.quantity).sum)
          rw [mi8, mi5]
          dsimp only
          omega
        | MARKET =>
          right; right
          exact ⟨rfl, fun o ho hoid => absurd hoid
            (Nat.ne_of_lt (process_market_ids_lt en hwf Side.SELL p Q o ho))⟩

theorem process_conservation_witness :
    0 < 100 ∧
    ((((MatchingEngine.mk0.process_order Side.BUY OrderType.LIMIT 10000 100).2.map
        Trade.quantity).sum ≤ 100) ∧
    ((((MatchingEngine.mk0.process_order Side.BUY OrderType.LIMIT 10000 100).2.map
        Trade.quantity).sum = 100) ∨
      (OrderType.LIMIT = OrderType.LIMIT ∧
        ∃ e2 ∈ sideOf (MatchingEngine.mk0.process_order Side.BUY OrderType.LIMIT
          10000 100).1.book Side.BUY, e2.1 = 10000 ∧
          ∃ o ∈ e2.2.orders, o.id = MatchingEngine.mk0.next_order_id ∧
            o.remaining = 100 - (((MatchingEngine.mk0.process_order Side.BUY
              OrderType.LIMIT 10000 100).2.map Trade.quantity).sum)) ∨
      (OrderType.LIMIT = OrderType.MARKET ∧
        ∀ o ∈ allOrders (MatchingEngine.mk0.process_order Side.BUY OrderType.LIMIT
          10000 100).1.book, o.id ≠ MatchingEngine.mk0.next_order_id))) :=
  ⟨by decide, process_conservation MatchingEngine.mk0 Reachable.mk0 Side.BUY
    OrderType.LIMIT 10000 100 (by decide)⟩

/-- **C4** — price-time priority: the FIFO example (two resting sells at the
same price, the earlier id fills) trades exactly once against id 1; and in
general the trades of one call are best-price first, with the makers struck at
any level forming an initial segment of that level's FIFO queue. -/
theorem price_time_priority (en : MatchingEngine) (h : Reachable en)
    (s : Side) (t : OrderType) (p : Int) (q : Nat) :
    (((runOps [Op.process Side.SELL OrderType.LIMIT 10000 100,
        Op.process Side.SELL OrderType.LIMIT 10000 100]).process_order
        Side.BUY OrderType.LIMIT 10000 100).2 = [⟨3, 1, 10000, 100, 4⟩]) ∧
    ((en.process_order s t p q).2.map Trade.price).Pairwise
      (fun a b => match s with
        | Side.BUY => a ≤ b
        | Side.SELL => b ≤ a) ∧
    (∀ e2 ∈ sideOf en.book (opposite s), ∃ suf,
      e2.2.orders.map Order.id =
        (((en.process_order s t p q).2.filter
          (fun tr => decide (tr.price = e2.1))).map (makerOf s)) ++ suf) := by
  have hwf := reachable_wf h
  refine ⟨rfl, ?_, ?_⟩
  · cases s with
    | BUY =>
      have hp := match_side_prices true
        ⟨en.next_order_id, en.next_timestamp, p, q, 0, Side.BUY, t⟩
        en.book.asks (en.next_timestamp + 1) en.trade_count
        (fun a b => a < b) hwf.book.asks_sorted
      show ((match_side true
        ⟨en.next_order_id, en.next_timestamp, p, q, 0, Side.BUY, t⟩
        en.book.asks (en.next_timestamp + 1) en.trade_count).trades.map
          Trade.price).Pairwise (fun a b : Int => a ≤ b)
      refine hp.imp ?_
      intro a b hab
      rcases hab with rfl | hab
      · exact le_refl a
      · exact le_of_lt hab
    | SELL =>
      have hp := match_side_prices false
        ⟨en.next_order_id, en.next_timestamp, p, q, 0, Side.SELL, t⟩
        en.book.bids (en.next_timestamp + 1) en.trade_count
        (fun a b => b < a) hwf.book.bids_sorted
      show ((match_side false
        ⟨en.next_order_id, en.next_timestamp, p, q, 0, Side.SELL, t⟩
        en.book.bids (en.next_timestamp + 1) en.trade_count).trades.map
          Trade.price).Pairwise (fun a b : Int => b ≤ a)
      refine hp.imp ?_
      intro a b hab
      rcases hab with rfl | hab
      · exact le_refl a
      · exact le_of_lt hab
  · cases s with
    | BUY =>
      have hne : (en.book.asks.map Prod.fst).Pairwise (fun a b : Int => a ≠ b) :=
        hwf.book.asks_sorted.imp (fun hab => ne_of_lt hab)
      have hf := match_side_fifo true
        ⟨en.next_order_id, en.next_timestamp, p, q, 0, Side.BUY, t⟩
        en.book.asks (en.next_timestamp + 1) en.trade_count hne
      intro e2 he2
      exact hf e2 he2
    | SELL =>
      have hne : (en.book.bids.map Prod.fst).Pairwise (fun a b : Int => a ≠ b) :=
        hwf.book.bids_sorted.imp (fun hab => ne_of_gt hab)
      have hf := match_side_fifo false
        ⟨en.next_order_id, en.next_timestamp, p, q, 0, Side.SELL, t⟩
        en.book.bids (en.next_timestamp + 1) en.trade_count hne
      intro e2 he2
      exact hf e2 he2

theorem price_time_priority_witness :
    (((runOps [Op.process Side.SELL OrderType.LIMIT 10000 100,
        Op.process Side.SELL OrderType.LIMIT 10000 100]).process_order
        Side.BUY OrderType.LIMIT 10000 100).2 = [⟨3, 1, 10000, 100, 4⟩]) ∧
    ((MatchingEngine.mk0.process_order Side.BUY OrderType.LIMIT 10000 100).2.map
      Trade.price).Pairwise (fun a b : Int => a ≤ b) ∧
    (∀ e2 ∈ sideOf MatchingEngine.mk0.book (opposite Side.BUY), ∃ suf,
      e2.2.orders.map Order.id =
        (((MatchingEngine.mk0.process_order Side.BUY OrderType.LIMIT
          10000 100).2.filter (fun tr => decide (tr.price = e2.1))).map
            (makerOf Side.BUY)) ++ suf) :=
  price_time_priority MatchingEngine.mk0 Reachable.mk0 Side.BUY OrderType.LIMIT
    10000 100

end OB
